import Mathlib

/-!
Verification of `fix-md-tables.py`, a markdown-table reformatter.

Strings are modelled as `List Char`; a document is a list of lines
(`List (List Char)`).  Every definition below is a direct translation of
the corresponding Python function, with Python's `str.strip`, `str.split`,
`str.ljust`, negative string repetition (`"-" * n` clamps at the empty
string, matching `Nat` subtraction) and list slicing spelled out.
-/

namespace MdTables

/-- The ASCII whitespace characters recognised by Python's `str.strip()`. -/
def isPySpace (c : Char) : Bool :=
  c == ' ' || c == '\t' || c == '\n' || c == '\r' || c == '\x0b' || c == '\x0c'

/-- Python `s.strip()`: drop leading and trailing whitespace. -/
def pyStrip (s : List Char) : List Char :=
  (((s.dropWhile isPySpace).reverse).dropWhile isPySpace).reverse

/-- Python `s.split(sep)` for a one-character separator: the list of
(possibly empty) segments between occurrences of `sep`; always nonempty. -/
def splitOnChar (sep : Char) : List Char → List (List Char)
  | [] => [[]]
  | c :: cs =>
    match splitOnChar sep cs with
    | [] => [[]]
    | s :: ss => if c = sep then [] :: s :: ss else (c :: s) :: ss

/-- Python `sep.join(xs)` for list-of-char strings. -/
def joinSep (sep : List Char) : List (List Char) → List Char
  | [] => []
  | [x] => x
  | x :: y :: rest => x ++ sep ++ joinSep sep (y :: rest)

/-- `is_table_row`: after stripping, the line starts and ends with `'|'`. -/
def is_table_row (line : List Char) : Bool :=
  (pyStrip line).head? == some '|' && (pyStrip line).getLast? == some '|'

/-- A cell consisting only of `'-'` and `':'` characters (the per-cell
separator-style test `all(c in "-:" for c in cell)` from the source). -/
def sepStyle (cell : List Char) : Bool :=
  cell.all (fun c => c == '-' || c == ':')

/-- `stripped.split("|")[1:-1]` followed by stripping each cell: the cell
contents of one table row. -/
def parseCells (line : List Char) : List (List Char) :=
  (((splitOnChar '|' (pyStrip line)).drop 1).dropLast).map pyStrip

/-- All rows of a table block, parsed into cells. -/
def parsedRows (table_lines : List (List Char)) : List (List (List Char)) :=
  table_lines.map parseCells

/-- `num_cols = max(len(row) for row in rows)` (0 on the empty list, which
the source guards against). -/
def numCols (table_lines : List (List Char)) : Nat :=
  ((parsedRows table_lines).map List.length).foldr max 0

/-- Right-pad a row with empty cells up to `n` cells. -/
def padRow (n : Nat) (row : List (List Char)) : List (List Char) :=
  row ++ List.replicate (n - row.length) ([] : List Char)

/-- The rows of a block, padded to the common cell count. -/
def paddedRows (table_lines : List (List Char)) : List (List (List Char)) :=
  (parsedRows table_lines).map (padRow (numCols table_lines))

/-- The column-width loop of `align_table`: running maximum over the rows of
the contribution of column `col`, where a separator-style cell contributes a
floor of 3 and any other cell its length. -/
def colWidthOf (rows : List (List (List Char))) (col : Nat) : Nat :=
  rows.foldl
    (fun mw row =>
      if col < row.length then
        if sepStyle (row.getD col []) then max mw 3
        else max mw (row.getD col []).length
      else mw)
    0

/-- Width of column `col` of a table block. -/
def colWidth (table_lines : List (List Char)) (col : Nat) : Nat :=
  colWidthOf (paddedRows table_lines) col

/-- `col_widths` of a table block. -/
def colWidths (table_lines : List (List Char)) : List Nat :=
  (List.range (numCols table_lines)).map (colWidth table_lines)

/-- Render one cell at the given column width: separator-style cells become
dash runs preserving edge colons, other cells are left-justified
(`cell.ljust(width)`).  `'-' * (width - k)` uses truncated subtraction,
matching Python's clamping of negative repetition at the empty string. -/
def renderCell (cell : List Char) (width : Nat) : List Char :=
  if sepStyle cell then
    if cell.head? == some ':' && cell.getLast? == some ':' then
      ':' :: List.replicate (width - 2) '-' ++ [':']
    else if cell.head? == some ':' then
      ':' :: List.replicate (width - 1) '-'
    else if cell.getLast? == some ':' then
      List.replicate (width - 1) '-' ++ [':']
    else
      List.replicate width '-'
  else
    cell ++ List.replicate (width - cell.length) ' '

/-- Render every cell of a (padded) row at its column width. -/
def renderRow (row : List (List Char)) (ws : List Nat) : List (List Char) :=
  (row.zip ws).map (fun cw => renderCell cw.1 cw.2)

/-- `"| " + " | ".join(cells) + " |"`. -/
def mkLine (cells : List (List Char)) : List Char :=
  '|' :: ' ' :: (joinSep [' ', '|', ' '] cells ++ [' ', '|'])

/-- `align_table`: normalize the column widths of a block of table lines. -/
def align_table (table_lines : List (List Char)) : List (List Char) :=
  if table_lines.isEmpty then table_lines
  else if (parsedRows table_lines).isEmpty then table_lines
  else
    (paddedRows table_lines).map
      (fun row => mkLine (renderRow row (colWidths table_lines)))

/-- `line.strip() == ""`: the line is blank. -/
def blankL (line : List Char) : Bool :=
  (pyStrip line).isEmpty

/-- `result and result[-1].strip() != ""`: the accumulated output is nonempty
and its last line is non-blank. -/
def lastState (acc : List (List Char)) : Bool :=
  match acc.getLast? with
  | none => false
  | some l => !blankL l

/-- The `while i < len(lines)` loop of `fix_tables_in_content`, with a fuel
argument bounding the number of iterations (each iteration consumes at least
one line, so `lines.length` fuel always suffices; see `goF_eq_go2`). -/
def goF : Nat → List (List Char) → List (List Char) → List (List Char)
  | 0, result, _ => result
  | _ + 1, result, [] => result
  | fuel + 1, result, l :: rest =>
    if is_table_row l then
      let table_lines := (l :: rest).takeWhile is_table_row
      let rest2 := (l :: rest).dropWhile is_table_row
      let result1 := if lastState result then result ++ [[]] else result
      let result2 := result1 ++ align_table table_lines
      let result3 :=
        match rest2.head? with
        | none => result2
        | some nxt => if blankL nxt then result2 else result2 ++ [[]]
      goF fuel result3 rest2
    else
      goF fuel (result ++ [l]) rest

/-- `fix_tables_in_content` restricted to an already-split list of lines. -/
def fixLines (lines : List (List Char)) : List (List Char) :=
  goF lines.length [] lines

/-- `fix_tables_in_content`: split on newlines, fix the tables, re-join. -/
def fix_tables_in_content (content : List Char) : List Char :=
  joinSep ['\n'] (fixLines (splitOnChar '\n' content))

/-! ### Facts about `splitOnChar` and `joinSep` -/

theorem splitOnChar_ne_nil (sep : Char) (s : List Char) : splitOnChar sep s ≠ [] := by
  cases s with
  | nil => simp [splitOnChar]
  | cons c cs =>
    simp only [splitOnChar]
    cases h : splitOnChar sep cs with
    | nil => simp
    | cons a as => by_cases hc : c = sep <;> simp [hc]

theorem splitOnChar_of_not_mem {sep : Char} {s : List Char} (h : sep ∉ s) :
    splitOnChar sep s = [s] := by
  induction s with
  | nil => rfl
  | cons c cs ih =>
    have hc : c ≠ sep := fun hcs => h (hcs ▸ List.mem_cons_self c cs)
    have hcs : sep ∉ cs := fun hm => h (List.mem_cons_of_mem c hm)
    simp only [splitOnChar, ih hcs]
    simp [hc]

theorem splitOnChar_append_sep {sep : Char} {a : List Char} (b : List Char)
    (h : sep ∉ a) : splitOnChar sep (a ++ sep :: b) = a :: splitOnChar sep b := by
  induction a with
  | nil =>
    simp only [List.nil_append, splitOnChar]
    cases hb : splitOnChar sep b with
    | nil => exact absurd hb (splitOnChar_ne_nil sep b)
    | cons s ss => simp
  | cons c a' ih =>
    have hc : c ≠ sep := fun hcs => h (hcs ▸ List.mem_cons_self c a')
    have ha' : sep ∉ a' := fun hm => h (List.mem_cons_of_mem c hm)
    simp only [List.cons_append, splitOnChar]
    simp only [List.append_eq]
    rw [ih ha']
    simp [hc]

theorem mem_splitOnChar {sep : Char} {s t : List Char}
    (ht : t ∈ splitOnChar sep s) : sep ∉ t ∧ ∀ ch ∈ t, ch ∈ s := by
  induction s generalizing t with
  | nil =>
    simp only [splitOnChar, List.mem_singleton] at ht
    subst ht; simp
  | cons c cs ih =>
    simp only [splitOnChar] at ht
    cases h : splitOnChar sep cs with
    | nil => exact absurd h (splitOnChar_ne_nil sep cs)
    | cons s0 ss =>
      rw [h] at ht
      by_cases hc : c = sep
      · simp only [hc, if_pos rfl] at ht
        rcases List.mem_cons.mp ht with rfl | ht'
        · simp
        · have := ih (h ▸ ht')
          exact ⟨this.1, fun ch hch => List.mem_cons_of_mem c (this.2 ch hch)⟩
      · simp only [if_neg hc] at ht
        rcases List.mem_cons.mp ht with rfl | ht'
        · have hs0 := ih (h ▸ (List.mem_cons_self s0 ss))
          constructor
          · intro hmem
            rcases List.mem_cons.mp hmem with rfl | hmem
            · exact hc rfl
            · exact hs0.1 hmem
          · intro ch hch
            rcases List.mem_cons.mp hch with rfl | hch
            · exact List.mem_cons_self ch cs
            · exact List.mem_cons_of_mem c (hs0.2 ch hch)
        · have := ih (h ▸ List.mem_cons_of_mem s0 ht')
          exact ⟨this.1, fun ch hch => List.mem_cons_of_mem c (this.2 ch hch)⟩

theorem joinSep_append_single (sep z : List Char) {ys : List (List Char)}
    (h : ys ≠ []) : joinSep sep (ys ++ [z]) = joinSep sep ys ++ sep ++ z := by
  induction ys with
  | nil => exact absurd rfl h
  | cons y ys' ih =>
    cases ys' with
    | nil => simp [joinSep]
    | cons y' t =>
      have ihh := ih (by simp)
      calc joinSep sep ((y :: y' :: t) ++ [z])
          = y ++ sep ++ joinSep sep ((y' :: t) ++ [z]) := by simp [joinSep]
        _ = y ++ sep ++ (joinSep sep (y' :: t) ++ sep ++ z) := by rw [ihh]
        _ = (y ++ sep ++ joinSep sep (y' :: t)) ++ sep ++ z := by simp [List.append_assoc]
        _ = joinSep sep (y :: y' :: t) ++ sep ++ z := by simp [joinSep]

theorem splitOnChar_joinSep {sep : Char} {ys : List (List Char)}
    (hne : ys ≠ []) (h : ∀ y ∈ ys, sep ∉ y) :
    splitOnChar sep (joinSep [sep] ys) = ys := by
  induction ys with
  | nil => exact absurd rfl hne
  | cons y ys' ih =>
    cases ys' with
    | nil => exact splitOnChar_of_not_mem (h y (List.mem_cons_self y []))
    | cons y' t =>
      have hy : sep ∉ y := h y (List.mem_cons_self y _)
      have hrest : ∀ z ∈ y' :: t, sep ∉ z := fun z hz => h z (List.mem_cons_of_mem y hz)
      have : joinSep [sep] (y :: y' :: t) = y ++ sep :: joinSep [sep] (y' :: t) := by
        simp [joinSep]
      rw [this, splitOnChar_append_sep _ hy, ih (by simp) hrest]

theorem mem_joinSep {sep : List Char} {ys : List (List Char)} {ch : Char}
    (h : ch ∈ joinSep sep ys) : ch ∈ sep ∨ ∃ y ∈ ys, ch ∈ y := by
  induction ys with
  | nil => simp [joinSep] at h
  | cons y ys' ih =>
    cases ys' with
    | nil =>
      right; exact ⟨y, List.mem_cons_self y [], h⟩
    | cons y' t =>
      simp only [joinSep, List.append_assoc, List.mem_append] at h
      rcases h with h | h | h
      · right; exact ⟨y, List.mem_cons_self y _, h⟩
      · left; exact h
      · rcases ih h with h' | ⟨z, hz, hch⟩
        · left; exact h'
        · right; exact ⟨z, List.mem_cons_of_mem y hz, hch⟩

/-! ### Facts about `pyStrip` -/

theorem head?_dropWhile {α : Type _} {p : α → Bool} {l : List α} {a : α}
    (h : (l.dropWhile p).head? = some a) : p a = false := by
  induction l with
  | nil => simp [List.dropWhile] at h
  | cons c cs ih =>
    rw [List.dropWhile_cons] at h
    by_cases hc : p c = true
    · rw [if_pos hc] at h
      exact ih h
    · rw [if_neg hc] at h
      simp only [List.head?_cons, Option.some.injEq] at h
      subst h
      exact Bool.eq_false_iff.mpr hc

theorem getLast?_dropWhile {p : Char → Bool} {l : List Char} {a : Char}
    (h : (l.dropWhile p).getLast? = some a) : l.getLast? = some a := by
  obtain ⟨t, ht⟩ := List.dropWhile_suffix (l := l) p
  rw [← ht, List.getLast?_append, h]
  exact Option.or_of_isSome (by simp)

theorem pyStrip_head? {s : List Char} {a : Char}
    (h : (pyStrip s).head? = some a) : isPySpace a = false := by
  unfold pyStrip at h
  rw [List.head?_reverse] at h
  have h2 := getLast?_dropWhile h
  rw [List.getLast?_eq_head?_reverse, List.reverse_reverse] at h2
  exact head?_dropWhile h2

theorem pyStrip_getLast? {s : List Char} {a : Char}
    (h : (pyStrip s).getLast? = some a) : isPySpace a = false := by
  unfold pyStrip at h
  rw [List.getLast?_eq_head?_reverse, List.reverse_reverse] at h
  exact head?_dropWhile h

theorem pyStrip_of_boundary {s : List Char}
    (hh : ∀ a, s.head? = some a → isPySpace a = false)
    (hl : ∀ b, s.getLast? = some b → isPySpace b = false) :
    pyStrip s = s := by
  cases s with
  | nil => rfl
  | cons a t =>
    have h1 : (a :: t).dropWhile isPySpace = a :: t := by
      rw [List.dropWhile_cons, if_neg (by simp [hh a rfl])]
    unfold pyStrip
    rw [h1]
    cases hrev : (a :: t).reverse with
    | nil => exact absurd (List.reverse_eq_nil_iff.mp hrev) (by simp)
    | cons b u =>
      have hb : (a :: t).getLast? = some b := by
        rw [List.getLast?_eq_head?_reverse, hrev]; rfl
      rw [List.dropWhile_cons, if_neg (by simp [hl b hb])]
      rw [← hrev, List.reverse_reverse]

theorem pyStrip_idem (s : List Char) : pyStrip (pyStrip s) = pyStrip s :=
  pyStrip_of_boundary (fun _ h => pyStrip_head? h) (fun _ h => pyStrip_getLast? h)

theorem pyStrip_of_no_space {s : List Char}
    (h : ∀ ch ∈ s, isPySpace ch = false) : pyStrip s = s := by
  refine pyStrip_of_boundary (fun a ha => ?_) (fun b hb => ?_)
  · cases s with
    | nil => simp at ha
    | cons c t =>
      simp only [List.head?_cons, Option.some.injEq] at ha
      exact ha ▸ h c (List.mem_cons_self c t)
  · have hrev : s.reverse.head? = some b := by
      rw [← List.getLast?_eq_head?_reverse]; exact hb
    have hmem : b ∈ s.reverse := by
      cases hs : s.reverse with
      | nil => rw [hs] at hrev; simp at hrev
      | cons x u =>
        rw [hs] at hrev
        simp only [List.head?_cons, Option.some.injEq] at hrev
        rw [hrev]
        exact List.mem_cons_self b u
    exact h b (List.mem_reverse.mp hmem)

theorem mem_pyStrip {s : List Char} {ch : Char} (h : ch ∈ pyStrip s) : ch ∈ s := by
  unfold pyStrip at h
  rw [List.mem_reverse] at h
  have h2 := (List.dropWhile_sublist (l := (s.dropWhile isPySpace).reverse) isPySpace).subset h
  rw [List.mem_reverse] at h2
  exact (List.dropWhile_sublist (l := s) isPySpace).subset h2

theorem pyStrip_append_spaces {s b : List Char}
    (hb : ∀ c ∈ b, isPySpace c = true) : pyStrip (s ++ b) = pyStrip s := by
  unfold pyStrip
  rw [List.dropWhile_append]
  by_cases hs : (s.dropWhile isPySpace).isEmpty = true
  · rw [if_pos hs]
    rw [List.isEmpty_iff.mp hs]
    have : b.dropWhile isPySpace = [] := List.dropWhile_eq_nil_iff.mpr hb
    rw [this]
  · rw [if_neg hs, List.reverse_append, List.dropWhile_append]
    have : (b.reverse.dropWhile isPySpace) = [] :=
      List.dropWhile_eq_nil_iff.mpr (fun x hx => hb x (List.mem_reverse.mp hx))
    rw [this]
    simp

theorem pyStrip_spaces_append {a s : List Char}
    (ha : ∀ c ∈ a, isPySpace c = true) : pyStrip (a ++ s) = pyStrip s := by
  unfold pyStrip
  rw [List.dropWhile_append]
  have : a.dropWhile isPySpace = [] := List.dropWhile_eq_nil_iff.mpr ha
  rw [this]
  simp

theorem pyStrip_pad (c : List Char) :
    pyStrip (' ' :: (c ++ [' '])) = pyStrip c := by
  have h1 : ' ' :: (c ++ [' ']) = [' '] ++ (c ++ [' ']) := rfl
  rw [h1, pyStrip_spaces_append (by intro x hx; simp at hx; simp [hx, isPySpace]),
    pyStrip_append_spaces (by intro x hx; simp at hx; simp [hx, isPySpace])]

/-! ### Facts about `renderCell`, `mkLine` and `parseCells` -/

theorem mem_renderCell {cell : List Char} {w : Nat} {ch : Char}
    (h : ch ∈ renderCell cell w) : ch ∈ cell ∨ ch = '-' ∨ ch = ':' ∨ ch = ' ' := by
  unfold renderCell at h
  by_cases hs : sepStyle cell = true
  · rw [if_pos hs] at h
    split at h <;> [skip; split at h] <;> [skip; skip; split at h] <;>
      simp only [List.mem_cons, List.mem_append, List.mem_singleton,
        List.mem_replicate] at h <;> tauto
  · rw [if_neg hs] at h
    rcases List.mem_append.mp h with h | h
    · exact Or.inl h
    · right; right; right; exact (List.mem_replicate.mp h).2

theorem sepStyle_chars {cell : List Char} (hs : sepStyle cell = true) {ch : Char}
    (h : ch ∈ cell) : ch = '-' ∨ ch = ':' := by
  have := (List.all_eq_true.mp hs) ch h
  rcases Bool.or_eq_true_iff.mp this with h' | h'
  · left; exact beq_iff_eq.mp h'
  · right; exact beq_iff_eq.mp h'

theorem renderCell_sepStyle {cell : List Char} {w : Nat} (hs : sepStyle cell = true) :
    sepStyle (renderCell cell w) = true := by
  rw [sepStyle, List.all_eq_true]
  intro ch hch
  rcases mem_renderCell hch with h | h | h | h
  · rcases sepStyle_chars hs h with h' | h' <;> simp [h']
  · simp [h]
  · simp [h]
  · exfalso
    unfold renderCell at hch
    rw [if_pos hs] at hch
    subst h
    split at hch <;> [skip; split at hch] <;> [skip; skip; split at hch] <;>
      simp only [List.mem_cons, List.mem_append, List.mem_singleton,
        List.mem_replicate] at hch <;> simp_all

theorem pyStrip_renderCell_sep {cell : List Char} {w : Nat} (hs : sepStyle cell = true) :
    pyStrip (renderCell cell w) = renderCell cell w := by
  apply pyStrip_of_no_space
  intro ch hch
  rcases sepStyle_chars (renderCell_sepStyle hs) hch with h | h <;> simp [h, isPySpace]

theorem pyStrip_renderCell_regular {cell : List Char} {w : Nat}
    (hs : sepStyle cell = false) (hc : pyStrip cell = cell) :
    pyStrip (renderCell cell w) = cell := by
  unfold renderCell
  rw [if_neg (by simp [hs])]
  rw [pyStrip_append_spaces (by intro c hcm; rw [(List.mem_replicate.mp hcm).2]; rfl)]
  exact hc

theorem mkLine_eq_concat (cells : List (List Char)) :
    mkLine cells = ('|' :: ' ' :: (joinSep [' ', '|', ' '] cells ++ [' '])) ++ ['|'] := by
  simp [mkLine]

theorem mkLine_getLast? (cells : List (List Char)) :
    (mkLine cells).getLast? = some '|' := by
  rw [mkLine_eq_concat]
  exact List.getLast?_concat _

theorem pyStrip_mkLine (cells : List (List Char)) :
    pyStrip (mkLine cells) = mkLine cells := by
  apply pyStrip_of_boundary
  · intro a ha
    simp only [mkLine, List.head?_cons, Option.some.injEq] at ha
    subst ha; rfl
  · intro b hb
    rw [mkLine_getLast? cells] at hb
    simp only [Option.some.injEq] at hb
    subst hb; rfl

theorem is_table_row_mkLine (cells : List (List Char)) :
    is_table_row (mkLine cells) = true := by
  rw [is_table_row, pyStrip_mkLine, mkLine_getLast?]
  simp [mkLine]

theorem blankL_mkLine (cells : List (List Char)) :
    blankL (mkLine cells) = false := by
  rw [blankL, pyStrip_mkLine]
  simp [mkLine]

theorem splitOnChar_cons_sep (sep : Char) (xs : List Char) :
    splitOnChar sep (sep :: xs) = [] :: splitOnChar sep xs := by
  simp only [splitOnChar]
  cases h : splitOnChar sep xs with
  | nil => exact absurd h (splitOnChar_ne_nil sep xs)
  | cons s ss => simp

theorem joinSep_pad {cells : List (List Char)} (h : cells ≠ []) :
    ' ' :: (joinSep [' ', '|', ' '] cells ++ [' '])
      = joinSep ['|'] (cells.map (fun c => ' ' :: (c ++ [' ']))) := by
  induction cells with
  | nil => exact absurd rfl h
  | cons c cs ih =>
    cases cs with
    | nil => simp [joinSep]
    | cons c' t =>
      have ihh := ih (by simp)
      calc ' ' :: (joinSep [' ', '|', ' '] (c :: c' :: t) ++ [' '])
          = ' ' :: ((c ++ [' ', '|', ' '] ++ joinSep [' ', '|', ' '] (c' :: t)) ++ [' ']) := by
            simp [joinSep]
        _ = (' ' :: (c ++ [' '])) ++ ['|'] ++ (' ' :: (joinSep [' ', '|', ' '] (c' :: t) ++ [' '])) := by
            simp [List.append_assoc]
        _ = (' ' :: (c ++ [' '])) ++ ['|'] ++ joinSep ['|'] ((c' :: t).map (fun c => ' ' :: (c ++ [' ']))) := by
            rw [ihh]
        _ = joinSep ['|'] ((c :: c' :: t).map (fun c => ' ' :: (c ++ [' ']))) := by
            simp [joinSep, List.append_assoc]

theorem parseCells_mkLine {cells : List (List Char)} (hne : cells ≠ [])
    (hp : ∀ c ∈ cells, '|' ∉ c) :
    parseCells (mkLine cells) = cells.map pyStrip := by
  have hys_ne : cells.map (fun c => ' ' :: (c ++ [' '])) ≠ [] := by
    simpa using hne
  have hys_free : ∀ y ∈ cells.map (fun c => ' ' :: (c ++ [' '])) ++ [[]], '|' ∉ y := by
    intro y hy
    rcases List.mem_append.mp hy with hy | hy
    · obtain ⟨c, hc, rfl⟩ := List.mem_map.mp hy
      intro hmem
      rcases List.mem_cons.mp hmem with h' | h'
      · exact absurd h'.symm (by decide)
      · rcases List.mem_append.mp h' with h' | h'
        · exact hp c hc h'
        · simp at h'
    · simp only [List.mem_singleton] at hy
      subst hy; simp
  have hsplit : splitOnChar '|' (mkLine cells)
      = [] :: (cells.map (fun c => ' ' :: (c ++ [' '])) ++ [[]]) := by
    have h1 : mkLine cells
        = '|' :: (joinSep ['|'] (cells.map (fun c => ' ' :: (c ++ [' ']))) ++ ['|']) := by
      rw [← joinSep_pad hne]
      simp [mkLine, List.append_assoc]
    rw [h1, splitOnChar_cons_sep]
    have h2 : joinSep ['|'] (cells.map (fun c => ' ' :: (c ++ [' ']))) ++ ['|']
        = joinSep ['|'] ((cells.map (fun c => ' ' :: (c ++ [' ']))) ++ [[]]) := by
      rw [joinSep_append_single _ _ hys_ne]
      simp
    rw [h2, splitOnChar_joinSep (by simp) hys_free]
  rw [parseCells, pyStrip_mkLine, hsplit]
  simp only [List.drop_succ_cons, List.drop_zero, List.dropLast_concat]
  rw [List.map_map]
  apply List.map_congr_left
  intro c _
  exact pyStrip_pad c

theorem mem_parseCells_piece {line c : List Char} (hc : c ∈ parseCells line) :
    ∃ t ∈ splitOnChar '|' (pyStrip line), c = pyStrip t := by
  unfold parseCells at hc
  obtain ⟨t, ht, rfl⟩ := List.mem_map.mp hc
  refine ⟨t, ?_, rfl⟩
  exact (List.drop_sublist 1 _).subset ((List.dropLast_sublist _).subset ht)

theorem parseCells_stripped {line c : List Char} (hc : c ∈ parseCells line) :
    pyStrip c = c := by
  obtain ⟨t, _, rfl⟩ := mem_parseCells_piece hc
  exact pyStrip_idem t

theorem parseCells_no_pipe {line c : List Char} (hc : c ∈ parseCells line) :
    '|' ∉ c := by
  obtain ⟨t, ht, rfl⟩ := mem_parseCells_piece hc
  intro hmem
  exact (mem_splitOnChar ht).1 (mem_pyStrip hmem)

theorem parseCells_chars {line c : List Char} (hc : c ∈ parseCells line) :
    ∀ ch ∈ c, ch ∈ line := by
  obtain ⟨t, ht, rfl⟩ := mem_parseCells_piece hc
  intro ch hch
  exact mem_pyStrip ((mem_splitOnChar ht).2 ch (mem_pyStrip hch))

/-! ### Numeric facts about `numCols` and `colWidthOf` -/

theorem le_foldr_max {l : List Nat} {a : Nat} (h : a ∈ l) : a ≤ l.foldr max 0 := by
  induction l with
  | nil => simp at h
  | cons x xs ih =>
    rcases List.mem_cons.mp h with rfl | h'
    · exact Nat.le_max_left _ _
    · exact Nat.le_trans (ih h') (Nat.le_max_right _ _)

theorem foldr_max_eq_of_all_eq {l : List Nat} {n : Nat} (hne : l ≠ [])
    (h : ∀ x ∈ l, x = n) : l.foldr max 0 = n := by
  induction l with
  | nil => exact absurd rfl hne
  | cons x xs ih =>
    cases xs with
    | nil =>
      simp only [List.foldr]
      rw [h x (List.mem_cons_self x [])]
      exact Nat.max_eq_left (Nat.zero_le n)
    | cons y t =>
      have hx := h x (List.mem_cons_self x _)
      rw [List.foldr_cons, ih (by simp) (fun z hz => h z (List.mem_cons_of_mem x hz)), hx]
      exact Nat.max_self n

theorem length_le_numCols {tl : List (List Char)} {r : List (List Char)}
    (h : r ∈ parsedRows tl) : r.length ≤ numCols tl :=
  le_foldr_max (List.mem_map_of_mem List.length h)

theorem padRow_length {n : Nat} {r : List (List Char)} (h : r.length ≤ n) :
    (padRow n r).length = n := by
  simp [padRow, Nat.add_sub_cancel' h]

theorem mem_paddedRows_length {tl : List (List Char)} {row : List (List Char)}
    (h : row ∈ paddedRows tl) : row.length = numCols tl := by
  obtain ⟨r, hr, rfl⟩ := List.mem_map.mp h
  exact padRow_length (length_le_numCols hr)

theorem mem_paddedRows_cell {tl : List (List Char)} {row : List (List Char)}
    {cc : List Char} (h : row ∈ paddedRows tl) (hc : cc ∈ row) :
    pyStrip cc = cc ∧ '|' ∉ cc := by
  obtain ⟨r, hr, rfl⟩ := List.mem_map.mp h
  obtain ⟨line, hline, rfl⟩ := List.mem_map.mp hr
  rcases List.mem_append.mp hc with hcc | hcc
  · exact ⟨parseCells_stripped hcc, parseCells_no_pipe hcc⟩
  · rw [(List.mem_replicate.mp hcc).2]
    exact ⟨rfl, by simp⟩

/-- The loop body of the column-width computation. -/
def widthStep (col : Nat) (mw : Nat) (row : List (List Char)) : Nat :=
  if col < row.length then
    if sepStyle (row.getD col []) then max mw 3
    else max mw (row.getD col []).length
  else mw

theorem colWidthOf_eq_foldl (rows : List (List (List Char))) (col : Nat) :
    colWidthOf rows col = rows.foldl (widthStep col) 0 := rfl

theorem le_widthStep (col mw : Nat) (row : List (List Char)) :
    mw ≤ widthStep col mw row := by
  unfold widthStep
  split
  · split <;> exact Nat.le_max_left _ _
  · exact Nat.le_refl mw

theorem le_foldl_widthStep (col : Nat) (rows : List (List (List Char))) (mw : Nat) :
    mw ≤ rows.foldl (widthStep col) mw := by
  induction rows generalizing mw with
  | nil => exact Nat.le_refl mw
  | cons r rest ih => exact Nat.le_trans (le_widthStep col mw r) (ih _)

theorem contrib_le_foldl_widthStep {col : Nat} {rows : List (List (List Char))}
    {row : List (List Char)} (hmem : row ∈ rows) (hcol : col < row.length) (mw : Nat) :
    (if sepStyle (row.getD col []) then 3 else (row.getD col []).length)
      ≤ rows.foldl (widthStep col) mw := by
  induction rows generalizing mw with
  | nil => simp at hmem
  | cons r rest ih =>
    rcases List.mem_cons.mp hmem with rfl | h'
    · rw [List.foldl_cons]
      refine Nat.le_trans ?_ (le_foldl_widthStep col rest _)
      unfold widthStep
      rw [if_pos hcol]
      split <;> exact Nat.le_max_right _ _
    · exact ih h' _

theorem contrib_le_colWidth {tl : List (List Char)} {row : List (List Char)}
    {j : Nat} (hmem : row ∈ paddedRows tl) (hj : j < row.length) :
    (if sepStyle (row.getD j []) then 3 else (row.getD j []).length) ≤ colWidth tl j :=
  contrib_le_foldl_widthStep hmem hj 0

theorem foldl_widthStep_eq_foldr_max {col : Nat} {rows : List (List (List Char))}
    (h : ∀ row ∈ rows, col < row.length) (mw : Nat) :
    rows.foldl (widthStep col) mw
      = max mw ((rows.map
          (fun row => if sepStyle (row.getD col []) then 3
                      else (row.getD col []).length)).foldr max 0) := by
  induction rows generalizing mw with
  | nil => simp
  | cons r rest ih =>
    rw [List.foldl_cons, ih (fun row hrow => h row (List.mem_cons_of_mem r hrow))]
    have hr : widthStep col mw r
        = max mw (if sepStyle (r.getD col []) then 3 else (r.getD col []).length) := by
      unfold widthStep
      rw [if_pos (h r (List.mem_cons_self r rest))]
      split <;> rfl
    rw [hr]
    simp [Nat.max_assoc]

theorem widthStep_eq_max_contrib {col : Nat} {row : List (List Char)} (mw : Nat)
    (h : col < row.length) :
    widthStep col mw row
      = max mw (if sepStyle (row.getD col []) then 3 else (row.getD col []).length) := by
  unfold widthStep
  rw [if_pos h]
  split <;> rfl

/-! ### Lengths of rendered cells, structure of `align_table` -/

theorem renderCell_length_sep {cell : List Char} {w : Nat} (hs : sepStyle cell = true)
    (hw : 2 ≤ w) : (renderCell cell w).length = w := by
  unfold renderCell
  rw [if_pos hs]
  split
  · simp
    omega
  · split
    · simp
      omega
    · split
      · simp
        omega
      · simp

theorem renderCell_length_reg {cell : List Char} {w : Nat} (hs : sepStyle cell = false)
    (hw : cell.length ≤ w) : (renderCell cell w).length = w := by
  unfold renderCell
  rw [if_neg (by simp [hs])]
  simp only [List.length_append, List.length_replicate]
  omega

theorem renderRow_length (row : List (List Char)) (ws : List Nat) :
    (renderRow row ws).length = min row.length ws.length := by
  simp [renderRow]

theorem renderRow_getElem {row : List (List Char)} {ws : List Nat} {j : Nat}
    (h : j < (renderRow row ws).length)
    (h1 : j < row.length) (h2 : j < ws.length) :
    (renderRow row ws)[j] = renderCell row[j] ws[j] := by
  simp [renderRow]

theorem colWidths_length (tl : List (List Char)) :
    (colWidths tl).length = numCols tl := by
  simp [colWidths]

theorem colWidths_getElem (tl : List (List Char)) {j : Nat}
    (hj : j < (colWidths tl).length) :
    (colWidths tl)[j] = colWidth tl j := by
  simp [colWidths]

theorem parsedRows_ne_nil {tl : List (List Char)} (h : tl ≠ []) :
    parsedRows tl ≠ [] := by
  simpa [parsedRows] using h

theorem align_table_eq {tl : List (List Char)} (h : tl ≠ []) :
    align_table tl
      = (paddedRows tl).map (fun row => mkLine (renderRow row (colWidths tl))) := by
  unfold align_table
  rw [if_neg (by simp [List.isEmpty_iff, h]), if_neg (by simp [List.isEmpty_iff, parsedRows_ne_nil h])]

theorem align_table_length {tl : List (List Char)} (h : tl ≠ []) :
    (align_table tl).length = tl.length := by
  rw [align_table_eq h]
  simp [paddedRows, parsedRows]

theorem align_table_ne_nil {tl : List (List Char)} (h : tl ≠ []) :
    align_table tl ≠ [] := by
  intro hc
  have := align_table_length h
  rw [hc] at this
  exact h (List.length_eq_zero.mp this.symm)

theorem mem_align_table {tl : List (List Char)} {line : List Char} (h : tl ≠ [])
    (hline : line ∈ align_table tl) :
    ∃ row ∈ paddedRows tl, line = mkLine (renderRow row (colWidths tl)) := by
  rw [align_table_eq h] at hline
  obtain ⟨row, hrow, rfl⟩ := List.mem_map.mp hline
  exact ⟨row, hrow, rfl⟩

theorem align_table_row (tl : List (List Char)) (line : List Char)
    (hline : line ∈ align_table tl) :
    is_table_row line = true ∧ blankL line = false := by
  by_cases h : tl = []
  · subst h; simp [align_table] at hline
  · obtain ⟨row, _, rfl⟩ := mem_align_table h hline
    exact ⟨is_table_row_mkLine _, blankL_mkLine _⟩

theorem pipe_not_mem_renderCell {cell : List Char} {w : Nat} (h : '|' ∉ cell) :
    '|' ∉ renderCell cell w := by
  intro hmem
  rcases mem_renderCell hmem with h' | h' | h' | h'
  · exact h h'
  all_goals exact absurd h' (by decide)

/-! ### Stability of rendered separator patterns -/

theorem getLast?_cons_replicate (k : Nat) (a : Char) :
    (a :: List.replicate k a).getLast? = some a := by
  induction k with
  | zero => rfl
  | succ m ih =>
    rw [List.replicate_succ, List.getLast?_cons_cons]
    exact ih

theorem getLast?_replicate {k : Nat} (a : Char) (h : 0 < k) :
    (List.replicate k a).getLast? = some a := by
  cases k with
  | zero => omega
  | succ m =>
    rw [List.replicate_succ]
    exact getLast?_cons_replicate m a

theorem head?_replicate_pos {k : Nat} (a : Char) (h : 0 < k) :
    (List.replicate k a).head? = some a := by
  rw [List.head?_replicate, if_neg (by omega)]

theorem getLast?_cons_ne_nil {a : Char} {l : List Char} (h : l ≠ []) :
    (a :: l).getLast? = l.getLast? := by
  cases l with
  | nil => exact absurd rfl h
  | cons b t => exact List.getLast?_cons_cons

theorem renderCell_stable {cell : List Char} {w : Nat} (hs : sepStyle cell = true)
    (hw : 3 ≤ w) : renderCell (renderCell cell w) w = renderCell cell w := by
  have hsep2 : sepStyle (renderCell cell w) = true := renderCell_sepStyle hs
  by_cases h1 : cell.head? = some ':' <;> by_cases h2 : cell.getLast? = some ':'
  · -- both edge colons
    have hpat : renderCell cell w = ':' :: List.replicate (w - 2) '-' ++ [':'] := by
      unfold renderCell
      rw [if_pos hs, if_pos (by simp [h1, h2])]
    rw [hpat] at hsep2 ⊢
    have hhd : (':' :: List.replicate (w - 2) '-' ++ [':']).head? = some ':' := rfl
    have hlst : (':' :: List.replicate (w - 2) '-' ++ [':']).getLast? = some ':' := by
      rw [show ':' :: List.replicate (w - 2) '-' ++ [':']
          = (':' :: List.replicate (w - 2) '-') ++ [':'] from rfl]
      exact List.getLast?_concat _
    unfold renderCell
    rw [if_pos hsep2, if_pos (by rw [hhd, hlst]; decide)]
  · -- leading colon only
    have hpat : renderCell cell w = ':' :: List.replicate (w - 1) '-' := by
      unfold renderCell
      rw [if_pos hs, if_neg (by simp [h2]), if_pos (by simp [h1])]
    rw [hpat] at hsep2 ⊢
    have hhd : (':' :: List.replicate (w - 1) '-').head? = some ':' := rfl
    have hlst : (':' :: List.replicate (w - 1) '-').getLast? = some '-' := by
      rw [getLast?_cons_ne_nil (by simp; omega)]
      exact getLast?_replicate '-' (by omega)
    unfold renderCell
    rw [if_pos hsep2, if_neg (by rw [hhd, hlst]; decide), if_pos (by rw [hhd]; decide)]
  · -- trailing colon only
    have hpat : renderCell cell w = List.replicate (w - 1) '-' ++ [':'] := by
      unfold renderCell
      rw [if_pos hs, if_neg (by simp [h1]), if_neg (by simp [h1]), if_pos (by simp [h2])]
    rw [hpat] at hsep2 ⊢
    have hhd : (List.replicate (w - 1) '-' ++ [':']).head? = some '-' := by
      rw [List.head?_append_of_ne_nil _ (by simp; omega)]
      exact head?_replicate_pos '-' (by omega)
    have hlst : (List.replicate (w - 1) '-' ++ [':']).getLast? = some ':' :=
      List.getLast?_concat _
    unfold renderCell
    rw [if_pos hsep2, if_neg (by rw [hhd]; simp), if_neg (by rw [hhd]; decide),
      if_pos (by rw [hlst]; decide)]
  · -- no edge colons
    have hpat : renderCell cell w = List.replicate w '-' := by
      unfold renderCell
      rw [if_pos hs, if_neg (by simp [h1]), if_neg (by simp [h1]), if_neg (by simp [h2])]
    rw [hpat] at hsep2 ⊢
    have hhd : (List.replicate w '-').head? = some '-' := head?_replicate_pos '-' (by omega)
    have hlst : (List.replicate w '-').getLast? = some '-' :=
      getLast?_replicate '-' (by omega)
    unfold renderCell
    rw [if_pos hsep2, if_neg (by rw [hhd]; simp), if_neg (by rw [hhd]; decide),
      if_neg (by rw [hlst]; decide)]

/-! ### `align_table` is a fixed point on its own output -/

theorem foldl_congr_mem {α β : Type} {l : List β} {f g : α → β → α} {i : α}
    (h : ∀ a, ∀ x ∈ l, f a x = g a x) : l.foldl f i = l.foldl g i := by
  induction l generalizing i with
  | nil => rfl
  | cons x xs ih =>
    rw [List.foldl_cons, List.foldl_cons, h i x (List.mem_cons_self x xs)]
    exact ih (fun a y hy => h a y (List.mem_cons_of_mem x hy))

theorem padRow_eq_self {n : Nat} {r : List (List Char)} (h : r.length = n) :
    padRow n r = r := by
  simp [padRow, h]

theorem paddedRows_ne_nil {tl : List (List Char)} (hne : tl ≠ []) :
    paddedRows tl ≠ [] := by
  simp [paddedRows, parsedRows, hne]

theorem align_table_fixpoint {tl : List (List Char)} (hne : tl ≠ [])
    (hn : 1 ≤ numCols tl) :
    align_table (align_table tl) = align_table tl := by
  have hRne : paddedRows tl ≠ [] := paddedRows_ne_nil hne
  have hrowlen : ∀ row ∈ paddedRows tl, row.length = numCols tl :=
    fun row h => mem_paddedRows_length h
  have hWlen := colWidths_length tl
  have hrrlen : ∀ row ∈ paddedRows tl,
      (renderRow row (colWidths tl)).length = numCols tl := by
    intro row hrow
    rw [renderRow_length, hrowlen row hrow, hWlen, Nat.min_self]
  have hparse : ∀ row ∈ paddedRows tl,
      parseCells (mkLine (renderRow row (colWidths tl)))
        = (renderRow row (colWidths tl)).map pyStrip := by
    intro row hrow
    apply parseCells_mkLine
    · intro hcon
      have := hrrlen row hrow
      rw [hcon] at this
      simp at this
      omega
    · intro c hc
      obtain ⟨⟨cc, w⟩, hcw, rfl⟩ := List.mem_map.mp hc
      exact pipe_not_mem_renderCell (mem_paddedRows_cell hrow (List.of_mem_zip hcw).1).2
  have hA : parsedRows (align_table tl)
      = (paddedRows tl).map (fun row => (renderRow row (colWidths tl)).map pyStrip) := by
    rw [parsedRows, align_table_eq hne, List.map_map]
    apply List.map_congr_left
    intro row hrow
    exact hparse row hrow
  have hlen2 : ∀ row ∈ paddedRows tl,
      ((renderRow row (colWidths tl)).map pyStrip).length = numCols tl := by
    intro row hrow
    rw [List.length_map]
    exact hrrlen row hrow
  have hnum : numCols (align_table tl) = numCols tl := by
    rw [numCols, hA, List.map_map]
    apply foldr_max_eq_of_all_eq
    · simp [hRne]
    · intro x hx
      obtain ⟨row, hrow, rfl⟩ := List.mem_map.mp hx
      exact hlen2 row hrow
  have hpad2 : paddedRows (align_table tl) = parsedRows (align_table tl) := by
    rw [paddedRows, hnum]
    nth_rewrite 2 [hA]
    rw [hA, List.map_map]
    apply List.map_congr_left
    intro row hrow
    exact padRow_eq_self (hlen2 row hrow)
  have hcell2 : ∀ row ∈ paddedRows tl, ∀ j, j < numCols tl →
      ((renderRow row (colWidths tl)).map pyStrip).getD j []
        = pyStrip (renderCell (row.getD j []) (colWidth tl j)) := by
    intro row hrow j hj
    have hl1 : row.length = numCols tl := hrowlen row hrow
    have hrr := hrrlen row hrow
    have hjm : j < ((renderRow row (colWidths tl)).map pyStrip).length := by
      rw [List.length_map, hrr]; exact hj
    rw [List.getD_eq_getElem _ _ hjm, List.getElem_map,
      renderRow_getElem (by rw [hrr]; exact hj) (by rw [hl1]; exact hj)
        (by rw [hWlen]; exact hj)]
    rw [List.getD_eq_getElem row [] (by rw [hl1]; exact hj)]
    rw [colWidths_getElem tl (by rw [hWlen]; exact hj)]
  have hstripped : ∀ row ∈ paddedRows tl, ∀ j, j < numCols tl →
      pyStrip (row.getD j []) = row.getD j [] := by
    intro row hrow j hj
    have hjl : j < row.length := by rw [hrowlen row hrow]; exact hj
    rw [List.getD_eq_getElem row [] hjl]
    exact (mem_paddedRows_cell hrow (List.getElem_mem hjl)).1
  have htc : ∀ row ∈ paddedRows tl, ∀ j, j < numCols tl →
      pyStrip (renderCell (row.getD j []) (colWidth tl j))
        = if sepStyle (row.getD j []) = true then
            renderCell (row.getD j []) (colWidth tl j)
          else row.getD j [] := by
    intro row hrow j hj
    by_cases hsep : sepStyle (row.getD j []) = true
    · rw [if_pos hsep]
      exact pyStrip_renderCell_sep hsep
    · rw [if_neg hsep]
      exact pyStrip_renderCell_regular (Bool.eq_false_iff.mpr hsep)
        (hstripped row hrow j hj)
  have hw3 : ∀ row ∈ paddedRows tl, ∀ j, j < numCols tl →
      sepStyle (row.getD j []) = true → 3 ≤ colWidth tl j := by
    intro row hrow j hj hsep
    have := contrib_le_colWidth hrow (by rw [hrowlen row hrow]; exact hj)
    rw [if_pos hsep] at this
    exact this
  have hwidth : ∀ j, j < numCols tl → colWidth (align_table tl) j = colWidth tl j := by
    intro j hj
    rw [colWidth, colWidth, hpad2, hA, colWidthOf_eq_foldl, colWidthOf_eq_foldl,
      List.foldl_map]
    apply foldl_congr_mem
    intro a row hrow
    have hl2 : ((renderRow row (colWidths tl)).map pyStrip).length = numCols tl :=
      hlen2 row hrow
    have hl1 : row.length = numCols tl := hrowlen row hrow
    rw [widthStep_eq_max_contrib a (by rw [hl2]; exact hj),
      widthStep_eq_max_contrib a (by rw [hl1]; exact hj),
      hcell2 row hrow j hj, htc row hrow j hj]
    by_cases hsep : sepStyle (row.getD j []) = true
    · rw [if_pos hsep]
      rw [if_pos (renderCell_sepStyle (w := colWidth tl j) hsep)]
      rw [if_pos hsep]
    · rw [if_neg hsep]
  have hWs : colWidths (align_table tl) = colWidths tl := by
    rw [colWidths, colWidths, hnum]
    apply List.map_congr_left
    intro j hjmem
    exact hwidth j (List.mem_range.mp hjmem)
  have hrender : ∀ row ∈ paddedRows tl,
      renderRow ((renderRow row (colWidths tl)).map pyStrip) (colWidths tl)
        = renderRow row (colWidths tl) := by
    intro row hrow
    have hl2 : ((renderRow row (colWidths tl)).map pyStrip).length = numCols tl :=
      hlen2 row hrow
    have hl1 : row.length = numCols tl := hrowlen row hrow
    apply List.ext_getElem
    · rw [renderRow_length, renderRow_length, hl2, hl1]
    · intro j hj1 hj2
      have hjn : j < numCols tl := by
        rw [renderRow_length, hl2, hWlen, Nat.min_self] at hj1
        exact hj1
      have hb2 : j < ((renderRow row (colWidths tl)).map pyStrip).length := by
        rw [hl2]; exact hjn
      have hbW : j < (colWidths tl).length := by rw [hWlen]; exact hjn
      have hb1 : j < row.length := by rw [hl1]; exact hjn
      rw [renderRow_getElem hj1 hb2 hbW, renderRow_getElem hj2 hb1 hbW]
      have e2 : ((renderRow row (colWidths tl)).map pyStrip)[j]
          = pyStrip (renderCell (row.getD j []) (colWidth tl j)) := by
        rw [← List.getD_eq_getElem _ [] hb2]
        exact hcell2 row hrow j hjn
      have e3 : (colWidths tl)[j] = colWidth tl j := colWidths_getElem tl hbW
      have e4 : row[j] = row.getD j [] := (List.getD_eq_getElem row [] hb1).symm
      rw [e2, e3, e4, htc row hrow j hjn]
      by_cases hsep : sepStyle (row.getD j []) = true
      · rw [if_pos hsep]
        exact renderCell_stable hsep (hw3 row hrow j hjn hsep)
      · rw [if_neg hsep]
  rw [align_table_eq (align_table_ne_nil hne), hWs, hpad2, hA, List.map_map,
    align_table_eq hne]
  apply List.map_congr_left
  intro row hrow
  simp only [Function.comp]
  rw [hrender row hrow]

/-! ### A state-passing form of the orchestration loop -/

theorem mem_of_getLast? {α : Type} {l : List α} {a : α} (h : l.getLast? = some a) :
    a ∈ l := by
  rw [List.getLast?_eq_head?_reverse] at h
  cases hs : l.reverse with
  | nil => rw [hs] at h; simp at h
  | cons x u =>
    rw [hs] at h
    simp only [List.head?_cons, Option.some.injEq] at h
    subst h
    exact List.mem_reverse.mp (hs ▸ List.mem_cons_self x u)

theorem dropWhile_cons_length_lt {p : List Char → Bool} {l : List Char}
    {rest : List (List Char)} (h : p l = true) :
    ((l :: rest).dropWhile p).length < (l :: rest).length := by
  rw [List.dropWhile_cons, if_pos h]
  simpa using Nat.lt_succ_of_le (List.dropWhile_sublist p).length_le

/-- The blank line the loop may emit between a rendered table and the next
source line: present exactly when a next line exists and is non-blank. -/
def afterBlank (rest2 : List (List Char)) : List (List Char) :=
  match rest2.head? with
  | none => []
  | some nxt => if blankL nxt then [] else [[]]

/-- The state the loop is in after a rendered table and its optional trailing
blank line: the last emitted line is the blank (so blank state) when a blank
was emitted, and the table's last line (non-blank) otherwise. -/
def afterState (rest2 : List (List Char)) : Bool :=
  match rest2.head? with
  | none => true
  | some nxt => blankL nxt

/-- The loop of `fix_tables_in_content`, rewritten so that the only state
carried between iterations is the single bit the loop ever reads back from
its accumulator: whether the previously emitted line exists and is
non-blank.  `goF_eq_go2` proves this equal to the accumulator-passing loop. -/
def go2 (p : Bool) (ls : List (List Char)) : List (List Char) :=
  match ls with
  | [] => []
  | l :: rest =>
    if h : is_table_row l then
      (if p then [([] : List Char)] else []) ++
        align_table ((l :: rest).takeWhile is_table_row) ++
        afterBlank ((l :: rest).dropWhile is_table_row) ++
        go2 (afterState ((l :: rest).dropWhile is_table_row))
          ((l :: rest).dropWhile is_table_row)
    else l :: go2 (!blankL l) rest
termination_by ls.length
decreasing_by
  all_goals
    first
    | exact dropWhile_cons_length_lt h
    | simp

theorem lastState_append_single (acc : List (List Char)) (l : List Char) :
    lastState (acc ++ [l]) = !blankL l := by
  rw [lastState, List.getLast?_concat]

theorem lastState_append (acc : List (List Char)) {A : List (List Char)} (hA : A ≠ []) :
    lastState (acc ++ A) = lastState A := by
  rw [lastState, lastState, List.getLast?_append,
    Option.or_of_isSome (by rwa [List.getLast?_isSome])]

theorem go2_nil (p : Bool) : go2 p [] = [] := by
  rw [go2]

theorem goF_nil (fuel : Nat) (acc : List (List Char)) : goF fuel acc [] = acc := by
  cases fuel <;> rfl

theorem blankL_nil : blankL [] = true := rfl

theorem lastState_align (acc : List (List Char)) {tbl : List (List Char)}
    (h : tbl ≠ []) : lastState (acc ++ align_table tbl) = true := by
  rw [lastState_append acc (align_table_ne_nil h), lastState]
  cases hl : (align_table tbl).getLast? with
  | none =>
    exact absurd (List.getLast?_isSome.mpr (align_table_ne_nil h)) (by simp [hl])
  | some line =>
    have hbf := (align_table_row tbl line (mem_of_getLast? hl)).2
    simp [hbf]

theorem result1_eq (acc : List (List Char)) :
    (if lastState acc then acc ++ [([] : List Char)] else acc)
      = acc ++ (if lastState acc then [([] : List Char)] else []) := by
  cases lastState acc <;> simp

theorem goF_eq_go2 : ∀ (fuel : Nat) (acc ls : List (List Char)), ls.length ≤ fuel →
    goF fuel acc ls = acc ++ go2 (lastState acc) ls := by
  intro fuel
  induction fuel with
  | zero =>
    intro acc ls hlen
    have hnil : ls = [] := List.length_eq_zero.mp (Nat.le_zero.mp hlen)
    subst hnil
    rw [goF, go2_nil]
    simp
  | succ fuel ih =>
    intro acc ls hlen
    cases ls with
    | nil =>
      rw [goF, go2_nil]
      simp
    | cons l rest =>
      have hrlen : rest.length ≤ fuel := by
        simp only [List.length_cons] at hlen
        omega
      by_cases h : is_table_row l = true
      · have htblne : (l :: rest).takeWhile is_table_row ≠ [] := by
          rw [List.takeWhile_cons, if_pos h]
          simp
        have hdw : (l :: rest).dropWhile is_table_row = rest.dropWhile is_table_row := by
          rw [List.dropWhile_cons, if_pos h]
        have hdwlen : (rest.dropWhile is_table_row).length ≤ fuel :=
          Nat.le_trans (List.dropWhile_sublist _).length_le hrlen
        rw [goF, go2, dif_pos h, if_pos h]
        simp only [hdw]
        cases hrest2 : rest.dropWhile is_table_row with
        | nil =>
          simp only [afterBlank, afterState, List.head?_nil]
          rw [goF_nil, go2_nil, result1_eq acc]
          simp [List.append_assoc]
        | cons nxt rest2 =>
          have hlen2 : (nxt :: rest2).length ≤ fuel := by
            rw [← hrest2]; exact hdwlen
          simp only [afterBlank, afterState, List.head?_cons]
          by_cases hbl : blankL nxt = true
          · rw [if_pos hbl, if_pos hbl, hbl, ih _ _ hlen2]
            rw [lastState_align _ htblne, result1_eq acc]
            simp [List.append_assoc]
          · have hblf : blankL nxt = false := Bool.eq_false_iff.mpr hbl
            rw [if_neg hbl, if_neg hbl, hblf, ih _ _ hlen2]
            rw [lastState_append_single]
            rw [result1_eq acc]
            simp [blankL, pyStrip, List.append_assoc]
      · rw [goF, go2, dif_neg h, if_neg h, ih _ _ hrlen, lastState_append_single]
        simp [List.append_assoc]

theorem fixLines_eq_go2 (ls : List (List Char)) : fixLines ls = go2 false ls := by
  rw [fixLines, goF_eq_go2 _ _ _ (Nat.le_refl _)]
  rfl

/-! ### Idempotence of the lines-level transform -/

theorem is_table_row_nil : is_table_row [] = false := rfl

theorem go2_cons_not_tr {l : List Char} (rest : List (List Char)) (p : Bool)
    (h : is_table_row l = false) : go2 p (l :: rest) = l :: go2 (!blankL l) rest := by
  rw [go2, dif_neg (by simp [h])]

theorem go2_ne_nil {ls : List (List Char)} (h : ls ≠ []) (p : Bool) :
    go2 p ls ≠ [] := by
  cases ls with
  | nil => exact absurd rfl h
  | cons l rest =>
    by_cases htr : is_table_row l = true
    · rw [go2, dif_pos htr]
      intro hc
      simp only [List.append_eq_nil] at hc
      have htblne : (l :: rest).takeWhile is_table_row ≠ [] := by
        rw [List.takeWhile_cons, if_pos htr]
        simp
      exact align_table_ne_nil htblne hc.1.1.2
    · rw [go2_cons_not_tr _ _ (Bool.eq_false_iff.mpr htr)]
      simp

theorem takeWhile_append_of {p : List Char → Bool} : ∀ (A X : List (List Char)),
    (∀ a ∈ A, p a = true) → (∀ x, X.head? = some x → p x = false) →
    (A ++ X).takeWhile p = A ∧ (A ++ X).dropWhile p = X := by
  intro A
  induction A with
  | nil =>
    intro X _ hX
    cases X with
    | nil => simp
    | cons x xs =>
      have hx : p x = false := hX x rfl
      constructor
      · rw [List.nil_append, List.takeWhile_cons, if_neg (by simp [hx])]
      · rw [List.nil_append, List.dropWhile_cons, if_neg (by simp [hx])]
  | cons a A' ih =>
    intro X hA hX
    have ha : p a = true := hA a (List.mem_cons_self a A')
    have ihh := ih X (fun b hb => hA b (List.mem_cons_of_mem a hb)) hX
    constructor
    · rw [List.cons_append, List.takeWhile_cons, if_pos ha, ihh.1]
    · rw [List.cons_append, List.dropWhile_cons, if_pos ha]
      exact ihh.2

theorem numCols_pos_of_head {l : List Char} (rest : List (List Char))
    (hc : parseCells l ≠ []) : 1 ≤ numCols (l :: rest) := by
  have hmem : parseCells l ∈ parsedRows (l :: rest) :=
    List.mem_map_of_mem parseCells (List.mem_cons_self l rest)
  have := length_le_numCols hmem
  have hpos : 0 < (parseCells l).length := List.length_pos.mpr hc
  omega

/-- The table block collected at a table row `l` re-aligns to itself, provided
`l` parses to at least one cell. -/
theorem align_align_takeWhile {l : List Char} {rest : List (List Char)}
    (h : is_table_row l = true) (hc : parseCells l ≠ []) :
    align_table (align_table ((l :: rest).takeWhile is_table_row))
      = align_table ((l :: rest).takeWhile is_table_row) := by
  have htbl : (l :: rest).takeWhile is_table_row
      = l :: rest.takeWhile is_table_row := by
    rw [List.takeWhile_cons, if_pos h]
  rw [htbl]
  exact align_table_fixpoint (by simp) (numCols_pos_of_head _ hc)

/-- Processing a fixed rendered block followed by non-table-headed content,
starting in the blank state, reproduces the block and continues on the rest. -/
theorem go2_false_block_append {l : List Char} {rest : List (List Char)}
    (h : is_table_row l = true)
    (hAfix : align_table (align_table ((l :: rest).takeWhile is_table_row))
      = align_table ((l :: rest).takeWhile is_table_row))
    (X : List (List Char))
    (hX : ∀ x, X.head? = some x → is_table_row x = false) :
    go2 false (align_table ((l :: rest).takeWhile is_table_row) ++ X)
      = align_table ((l :: rest).takeWhile is_table_row) ++
        (afterBlank X ++ go2 (afterState X) X) := by
  have htblne : (l :: rest).takeWhile is_table_row ≠ [] := by
    rw [List.takeWhile_cons, if_pos h]
    simp
  have hAtr : ∀ a ∈ align_table ((l :: rest).takeWhile is_table_row),
      is_table_row a = true := fun a ha => (align_table_row _ a ha).1
  obtain ⟨a, A', hA⟩ : ∃ a A',
      align_table ((l :: rest).takeWhile is_table_row) = a :: A' := by
    cases hAe : align_table ((l :: rest).takeWhile is_table_row) with
    | nil => exact absurd hAe (align_table_ne_nil htblne)
    | cons a A' => exact ⟨a, A', rfl⟩
  have hatr : is_table_row a = true :=
    hAtr a (by rw [hA]; exact List.mem_cons_self a A')
  have htw := takeWhile_append_of (a :: A') X
    (fun b hb => hAtr b (by rw [hA]; exact hb)) hX
  rw [hA, List.cons_append, go2, dif_pos hatr, ← List.cons_append, htw.1, htw.2,
    ← hA, hAfix, hA]
  simp [List.append_assoc]

theorem go2_idem : ∀ (N : Nat) (ls : List (List Char)), ls.length ≤ N →
    (∀ l ∈ ls, is_table_row l = true → parseCells l ≠ []) →
    ∀ p, go2 p (go2 p ls) = go2 p ls := by
  intro N
  induction N with
  | zero =>
    intro ls hlen _ p
    have hnil : ls = [] := List.length_eq_zero.mp (Nat.le_zero.mp hlen)
    subst hnil
    rw [go2_nil, go2_nil]
  | succ N ih =>
    intro ls hlen hcond p
    cases ls with
    | nil => rw [go2_nil, go2_nil]
    | cons l rest =>
      have hrlen : rest.length ≤ N := by
        simp only [List.length_cons] at hlen
        omega
      by_cases h : is_table_row l = true
      · -- a table block starts here
        have hAfix : align_table (align_table ((l :: rest).takeWhile is_table_row))
            = align_table ((l :: rest).takeWhile is_table_row) :=
          align_align_takeWhile h (hcond l (List.mem_cons_self l rest) h)
        have hdw : (l :: rest).dropWhile is_table_row = rest.dropWhile is_table_row := by
          rw [List.dropWhile_cons, if_pos h]
        have hdwlen : (rest.dropWhile is_table_row).length ≤ rest.length :=
          (List.dropWhile_sublist _).length_le
        rw [go2, dif_pos h, hdw]
        -- the continuation after the rendered block re-processes to itself
        have hK : ∀ X, X = afterBlank (rest.dropWhile is_table_row) ++
              go2 (afterState (rest.dropWhile is_table_row)) (rest.dropWhile is_table_row) →
            (∀ x, X.head? = some x → is_table_row x = false) ∧
            afterBlank X ++ go2 (afterState X) X = X := by
          intro X hXdef
          cases hrest2 : rest.dropWhile is_table_row with
          | nil =>
            rw [hrest2] at hXdef
            simp only [afterBlank, afterState, List.head?_nil, go2_nil,
              List.append_nil] at hXdef
            subst hXdef
            constructor
            · intro x hx; simp at hx
            · simp [afterBlank, afterState, go2_nil]
          | cons nxt rest2 =>
            have hnxt : is_table_row nxt = false :=
              head?_dropWhile (l := rest) (by rw [hrest2]; rfl)
            have hsub2 : ∀ x ∈ nxt :: rest2, x ∈ l :: rest := by
              rw [← hrest2]
              exact fun x hx =>
                List.mem_cons_of_mem l ((List.dropWhile_sublist _).subset hx)
            have hlen2 : rest2.length ≤ N := by
              have hh : (nxt :: rest2).length ≤ rest.length := by
                rw [← hrest2]; exact hdwlen
              simp only [List.length_cons] at hh
              omega
            have hcondr2 : ∀ x ∈ rest2, is_table_row x = true → parseCells x ≠ [] :=
              fun x hx => hcond x (hsub2 x (List.mem_cons_of_mem nxt hx))
            rw [hrest2] at hXdef
            simp only [afterBlank, afterState, List.head?_cons] at hXdef
            by_cases hbl : blankL nxt = true
            · rw [if_pos hbl, hbl, List.nil_append,
                go2_cons_not_tr rest2 true hnxt,
                show (!blankL nxt) = false by rw [hbl]; rfl] at hXdef
              subst hXdef
              refine ⟨fun x hx => by simp only [List.head?_cons, Option.some.injEq] at hx; rw [← hx]; exact hnxt, ?_⟩
              simp only [afterBlank, afterState, List.head?_cons, if_pos hbl, hbl,
                List.nil_append]
              rw [go2_cons_not_tr _ true hnxt,
                show (!blankL nxt) = false by rw [hbl]; rfl,
                ih rest2 hlen2 hcondr2 false]
              simp
            · have hblf : blankL nxt = false := Bool.eq_false_iff.mpr hbl
              rw [if_neg hbl, hblf,
                go2_cons_not_tr rest2 false hnxt] at hXdef
              subst hXdef
              constructor
              · intro x hx
                simp only [List.cons_append, List.head?_cons, Option.some.injEq] at hx
                rw [← hx]
                exact is_table_row_nil
              · simp only [List.cons_append, afterBlank, afterState, List.head?_cons,
                  blankL_nil, if_pos rfl, List.nil_append]
                rw [show ([] : List Char) :: nxt :: go2 (!blankL nxt) rest2
                    = [] :: (nxt :: go2 (!blankL nxt) rest2) from rfl,
                  go2_cons_not_tr _ true is_table_row_nil, blankL_nil,
                  show (!true) = false from rfl,
                  go2_cons_not_tr _ false hnxt,
                  ih rest2 hlen2 hcondr2 (!blankL nxt)]
                simp
        have hKi := hK _ rfl
        -- dispatch on the leading blank
        cases p with
        | false =>
          simp only [if_neg (by simp : ¬ (false = true)), List.nil_append,
            List.append_assoc]
          rw [go2_false_block_append h hAfix _ hKi.1, hKi.2]
        | true =>
          simp only [eq_self_iff_true, if_true, List.singleton_append,
            List.cons_append, List.nil_append, List.append_assoc]
          rw [go2_cons_not_tr _ true is_table_row_nil, blankL_nil,
            show (!true) = false from rfl,
            go2_false_block_append h hAfix _ hKi.1, hKi.2]
      · -- not a table row: passes through
        rw [go2_cons_not_tr rest p (Bool.eq_false_iff.mpr h)]
        rw [go2_cons_not_tr (go2 (!blankL l) rest) p (Bool.eq_false_iff.mpr h)]
        rw [ih rest hrlen (fun x hx => hcond x (List.mem_cons_of_mem l hx)) (!blankL l)]

/-! ### The transform never introduces a newline into a line -/

theorem mem_paddedRows_cell_chars {tbl : List (List Char)}
    {row : List (List Char)} {cc : List Char} {ch : Char}
    (hrow : row ∈ paddedRows tbl) (hcc : cc ∈ row) (hch : ch ∈ cc) :
    ∃ t ∈ tbl, ch ∈ t := by
  obtain ⟨r, hr, rfl⟩ := List.mem_map.mp hrow
  obtain ⟨line, hline, rfl⟩ := List.mem_map.mp hr
  rcases List.mem_append.mp hcc with hcm | hcm
  · exact ⟨line, hline, parseCells_chars hcm ch hch⟩
  · rw [(List.mem_replicate.mp hcm).2] at hch
    simp at hch

theorem align_table_chars {tbl : List (List Char)} {l' : List Char} {ch : Char}
    (hl' : l' ∈ align_table tbl) (hch : ch ∈ l') :
    ch = '|' ∨ ch = ' ' ∨ ch = '-' ∨ ch = ':' ∨ ∃ t ∈ tbl, ch ∈ t := by
  by_cases hne : tbl = []
  · subst hne; simp [align_table] at hl'
  · obtain ⟨row, hrow, rfl⟩ := mem_align_table hne hl'
    simp only [mkLine, List.mem_cons, List.mem_append] at hch
    rcases hch with rfl | rfl | hch | rfl | rfl | hch
    · left; rfl
    · right; left; rfl
    · rcases mem_joinSep hch with hch | ⟨cell, hcell, hch⟩
      · rcases List.mem_cons.mp hch with rfl | hch
        · right; left; rfl
        · rcases List.mem_cons.mp hch with rfl | hch
          · left; rfl
          · rcases List.mem_cons.mp hch with rfl | hch
            · right; left; rfl
            · simp at hch
      · obtain ⟨⟨cc, w⟩, hcw, rfl⟩ := List.mem_map.mp hcell
        have hccrow : cc ∈ row := (List.of_mem_zip hcw).1
        rcases mem_renderCell hch with hch | rfl | rfl | rfl
        · right; right; right; right
          exact mem_paddedRows_cell_chars hrow hccrow hch
        · right; right; left; rfl
        · right; right; right; left; rfl
        · right; left; rfl
    · right; left; rfl
    · left; rfl
    · simp at hch

theorem newline_not_mem_go2 : ∀ (N : Nat) (ls : List (List Char)), ls.length ≤ N →
    (∀ l ∈ ls, ('\n' : Char) ∉ l) →
    ∀ p, ∀ l' ∈ go2 p ls, ('\n' : Char) ∉ l' := by
  intro N
  induction N with
  | zero =>
    intro ls hlen _ p l' hl'
    have hnil : ls = [] := List.length_eq_zero.mp (Nat.le_zero.mp hlen)
    subst hnil
    rw [go2_nil] at hl'
    simp at hl'
  | succ N ih =>
    intro ls hlen hfree p l' hl'
    cases ls with
    | nil => rw [go2_nil] at hl'; simp at hl'
    | cons l rest =>
      have hrlen : rest.length ≤ N := by
        simp only [List.length_cons] at hlen
        omega
      by_cases h : is_table_row l = true
      · have hdw : (l :: rest).dropWhile is_table_row = rest.dropWhile is_table_row := by
          rw [List.dropWhile_cons, if_pos h]
        have hdwlen : (rest.dropWhile is_table_row).length ≤ N :=
          Nat.le_trans (List.dropWhile_sublist _).length_le hrlen
        have hdwfree : ∀ x ∈ rest.dropWhile is_table_row, ('\n' : Char) ∉ x :=
          fun x hx => hfree x
            (List.mem_cons_of_mem l ((List.dropWhile_sublist _).subset hx))
        rw [go2, dif_pos h, hdw] at hl'
        simp only [List.mem_append] at hl'
        rcases hl' with ((hl' | hl') | hl') | hl'
        · split at hl'
          · simp only [List.mem_singleton] at hl'
            subst hl'
            simp
          · simp at hl'
        · -- in the aligned table
          intro hch
          rcases align_table_chars hl' hch with hc | hc | hc | hc | ⟨t, ht, htc⟩
          · exact absurd hc (by decide)
          · exact absurd hc (by decide)
          · exact absurd hc (by decide)
          · exact absurd hc (by decide)
          · exact hfree t ((List.takeWhile_sublist _).subset ht) htc
        · unfold afterBlank at hl'
          split at hl'
          · simp at hl'
          · split at hl'
            · simp at hl'
            · simp only [List.mem_singleton] at hl'
              subst hl'
              simp
        · exact ih _ hdwlen hdwfree _ l' hl'
      · rw [go2_cons_not_tr rest p (Bool.eq_false_iff.mpr h)] at hl'
        rcases List.mem_cons.mp hl' with rfl | hl'
        · exact hfree l' (List.mem_cons_self _ _)
        · exact ih rest hrlen
            (fun x hx => hfree x (List.mem_cons_of_mem l hx)) _ l' hl'

/-- String-level idempotence, under the condition that every table-row line
of the document parses to at least one cell. -/
theorem fix_idem_of_cells {s : List Char}
    (hc : ∀ l ∈ splitOnChar '\n' s, is_table_row l = true → parseCells l ≠ []) :
    fix_tables_in_content (fix_tables_in_content s) = fix_tables_in_content s := by
  unfold fix_tables_in_content
  rw [fixLines_eq_go2, fixLines_eq_go2]
  have hLne : splitOnChar '\n' s ≠ [] := splitOnChar_ne_nil _ _
  have hOne : go2 false (splitOnChar '\n' s) ≠ [] := go2_ne_nil hLne false
  have hfree : ∀ l ∈ splitOnChar '\n' s, ('\n' : Char) ∉ l :=
    fun l hl => (mem_splitOnChar hl).1
  have hOfree : ∀ l ∈ go2 false (splitOnChar '\n' s), ('\n' : Char) ∉ l :=
    newline_not_mem_go2 _ _ (Nat.le_refl _) hfree false
  rw [splitOnChar_joinSep hOne hOfree]
  rw [go2_idem _ _ (Nat.le_refl (splitOnChar '\n' s).length) hc false]

/-! ### Decomposing a run of the loop around one table block -/

theorem go2_append_not_tr : ∀ (pre : List (List Char)) (p : Bool) (X : List (List Char)),
    (∀ l ∈ pre, is_table_row l = false) →
    go2 p (pre ++ X)
      = pre ++ go2 (match pre.getLast? with
                    | none => p
                    | some last => !blankL last) X := by
  intro pre
  induction pre with
  | nil =>
    intro p X _
    simp
  | cons l pre' ih =>
    intro p X hpre
    have hl : is_table_row l = false := hpre l (List.mem_cons_self l pre')
    rw [List.cons_append, go2_cons_not_tr _ p hl,
      ih (!blankL l) X (fun x hx => hpre x (List.mem_cons_of_mem l hx))]
    cases pre' with
    | nil => simp
    | cons y t =>
      cases hgl : (y :: t).getLast? with
      | none =>
        have hs : (y :: t).getLast?.isSome = true := List.getLast?_isSome.mpr (by simp)
        rw [hgl] at hs
        exact absurd hs (by simp)
      | some z => simp [List.getLast?_cons_cons, hgl]

theorem go2_table_block {t rest : List (List Char)} (p : Bool)
    (ht : ∀ l ∈ t, is_table_row l = true) (htne : t ≠ [])
    (hrest : ∀ x, rest.head? = some x → is_table_row x = false) :
    go2 p (t ++ rest)
      = (if p then [[]] else []) ++ align_table t ++ afterBlank rest
          ++ go2 (afterState rest) rest := by
  cases t with
  | nil => exact absurd rfl htne
  | cons l t' =>
    have hl := ht l (List.mem_cons_self l t')
    rw [List.cons_append, go2, dif_pos hl, ← List.cons_append]
    have htw := takeWhile_append_of (l :: t') rest ht hrest
    rw [htw.1, htw.2]

/-! ### Frame conditions: non-table content passes through -/

theorem filterP_nil :
    ((fun l => !is_table_row l && !blankL l) ([] : List Char)) = false := rfl

theorem go2_filter_content : ∀ (N : Nat) (ls : List (List Char)), ls.length ≤ N →
    ∀ p, (go2 p ls).filter (fun l => !is_table_row l && !blankL l)
      = ls.filter (fun l => !is_table_row l && !blankL l) := by
  intro N
  induction N with
  | zero =>
    intro ls hlen p
    have hnil : ls = [] := List.length_eq_zero.mp (Nat.le_zero.mp hlen)
    subst hnil
    rw [go2_nil]
  | succ N ih =>
    intro ls hlen p
    cases ls with
    | nil => rw [go2_nil]
    | cons l rest =>
      have hrlen : rest.length ≤ N := by
        simp only [List.length_cons] at hlen
        omega
      by_cases h : is_table_row l = true
      · have hdw : (l :: rest).dropWhile is_table_row = rest.dropWhile is_table_row := by
          rw [List.dropWhile_cons, if_pos h]
        have hdwlen : (rest.dropWhile is_table_row).length ≤ N :=
          Nat.le_trans (List.dropWhile_sublist _).length_le hrlen
        rw [go2, dif_pos h, hdw]
        rw [List.filter_append, List.filter_append, List.filter_append]
        have h1 : ((if p then [([] : List Char)] else []).filter
            (fun l => !is_table_row l && !blankL l)) = [] := by
          cases p <;> simp [filterP_nil]
        have h2 : ((align_table ((l :: rest).takeWhile is_table_row)).filter
            (fun l => !is_table_row l && !blankL l)) = [] := by
          rw [List.filter_eq_nil_iff]
          intro a ha
          rw [(align_table_row _ a ha).1]
          simp
        have h3 : ((afterBlank (rest.dropWhile is_table_row)).filter
            (fun l => !is_table_row l && !blankL l)) = [] := by
          unfold afterBlank
          split
          · rfl
          · split
            · rfl
            · simp [filterP_nil]
        rw [h1, h2, h3, ih _ hdwlen]
        have hsplit : l :: rest
            = (l :: rest).takeWhile is_table_row ++ (l :: rest).dropWhile is_table_row :=
          (List.takeWhile_append_dropWhile _ _).symm
        rw [hsplit, List.filter_append, hdw]
        have h4 : (((l :: rest).takeWhile is_table_row).filter
            (fun l => !is_table_row l && !blankL l)) = [] := by
          rw [List.filter_eq_nil_iff]
          intro a ha
          rw [List.mem_takeWhile_imp ha]
          simp
        rw [h4]
        simp
      · rw [go2_cons_not_tr rest p (Bool.eq_false_iff.mpr h)]
        rw [List.filter_cons, List.filter_cons, ih rest hrlen (!blankL l)]

theorem go2_filter_sublist : ∀ (N : Nat) (ls : List (List Char)), ls.length ≤ N →
    ∀ p, (ls.filter (fun l => !is_table_row l)).Sublist
      ((go2 p ls).filter (fun l => !is_table_row l)) := by
  intro N
  induction N with
  | zero =>
    intro ls hlen p
    have hnil : ls = [] := List.length_eq_zero.mp (Nat.le_zero.mp hlen)
    subst hnil
    rw [go2_nil]
  | succ N ih =>
    intro ls hlen p
    cases ls with
    | nil => rw [go2_nil]
    | cons l rest =>
      have hrlen : rest.length ≤ N := by
        simp only [List.length_cons] at hlen
        omega
      by_cases h : is_table_row l = true
      · have hdw : (l :: rest).dropWhile is_table_row = rest.dropWhile is_table_row := by
          rw [List.dropWhile_cons, if_pos h]
        have hdwlen : (rest.dropWhile is_table_row).length ≤ N :=
          Nat.le_trans (List.dropWhile_sublist _).length_le hrlen
        rw [go2, dif_pos h, hdw]
        rw [List.filter_append, List.filter_append, List.filter_append]
        have hsplit : l :: rest
            = (l :: rest).takeWhile is_table_row ++ (l :: rest).dropWhile is_table_row :=
          (List.takeWhile_append_dropWhile _ _).symm
        rw [hsplit, List.filter_append, hdw]
        have h4 : (((l :: rest).takeWhile is_table_row).filter
            (fun l => !is_table_row l)) = [] := by
          rw [List.filter_eq_nil_iff]
          intro a ha
          rw [List.mem_takeWhile_imp ha]
          simp
        rw [h4, List.nil_append]
        exact (ih _ hdwlen (afterState (rest.dropWhile is_table_row))).trans
          (List.sublist_append_right _ _)
      · rw [go2_cons_not_tr rest p (Bool.eq_false_iff.mpr h)]
        rw [List.filter_cons, List.filter_cons]
        split
        · exact (ih rest hrlen (!blankL l)).cons₂ l
        · exact ih rest hrlen (!blankL l)

theorem go2_mem_classify : ∀ (N : Nat) (ls : List (List Char)), ls.length ≤ N →
    ∀ p, ∀ l' ∈ go2 p ls,
      l' ∈ ls ∨ blankL l' = true ∨ is_table_row l' = true := by
  intro N
  induction N with
  | zero =>
    intro ls hlen p l' hl'
    have hnil : ls = [] := List.length_eq_zero.mp (Nat.le_zero.mp hlen)
    subst hnil
    rw [go2_nil] at hl'
    simp at hl'
  | succ N ih =>
    intro ls hlen p l' hl'
    cases ls with
    | nil => rw [go2_nil] at hl'; simp at hl'
    | cons l rest =>
      have hrlen : rest.length ≤ N := by
        simp only [List.length_cons] at hlen
        omega
      by_cases h : is_table_row l = true
      · have hdw : (l :: rest).dropWhile is_table_row = rest.dropWhile is_table_row := by
          rw [List.dropWhile_cons, if_pos h]
        have hdwlen : (rest.dropWhile is_table_row).length ≤ N :=
          Nat.le_trans (List.dropWhile_sublist _).length_le hrlen
        rw [go2, dif_pos h, hdw] at hl'
        simp only [List.mem_append] at hl'
        rcases hl' with ((hl' | hl') | hl') | hl'
        · split at hl'
          · simp only [List.mem_singleton] at hl'
            subst hl'
            right; left; exact blankL_nil
          · simp at hl'
        · right; right; exact (align_table_row _ l' hl').1
        · unfold afterBlank at hl'
          split at hl'
          · simp at hl'
          · split at hl'
            · simp at hl'
            · simp only [List.mem_singleton] at hl'
              subst hl'
              right; left; exact blankL_nil
        · rcases ih _ hdwlen _ l' hl' with hmem | hrest
          · left
            exact List.mem_cons_of_mem l ((List.dropWhile_sublist _).subset hmem)
          · right; exact hrest
      · rw [go2_cons_not_tr rest p (Bool.eq_false_iff.mpr h)] at hl'
        rcases List.mem_cons.mp hl' with rfl | hl'
        · left; exact List.mem_cons_self _ _
        · rcases ih rest hrlen (!blankL l) l' hl' with hmem | hrest
          · left; exact List.mem_cons_of_mem l hmem
          · right; exact hrest

/-! ### An error-aware model: the partial operations of the source return
`none` instead of raising, and the transform is proved to never hit them -/

/-- Option-valued rendering of one row, modelling Python's `col_widths[col_idx]`
list indexing: `none` exactly when an index would be out of range. -/
def renderCellsChecked (ws : List Nat) : Nat → List (List Char) → Option (List (List Char))
  | _, [] => some []
  | i, c :: cs =>
    match ws[i]? with
    | none => none
    | some w =>
      match renderCellsChecked ws (i + 1) cs with
      | none => none
      | some rest => some (renderCell c w :: rest)

/-- Option-valued `align_table`, modelling the two operations of the source
that can raise: `max()` over an empty sequence and `col_widths[col_idx]`. -/
def align_tableChecked (table_lines : List (List Char)) : Option (List (List Char)) :=
  if table_lines.isEmpty then some table_lines
  else if (parsedRows table_lines).isEmpty then some table_lines
  else
    match ((parsedRows table_lines).map List.length).max? with
    | none => none
    | some n =>
      let padded := (parsedRows table_lines).map (padRow n)
      let ws := (List.range n).map (colWidthOf padded)
      padded.mapM (fun row => (renderCellsChecked ws 0 row).map mkLine)

/-- Option-valued orchestration loop. -/
def goChecked : Nat → List (List Char) → List (List Char) → Option (List (List Char))
  | 0, result, _ => some result
  | _ + 1, result, [] => some result
  | fuel + 1, result, l :: rest =>
    if is_table_row l then
      let table_lines := (l :: rest).takeWhile is_table_row
      let rest2 := (l :: rest).dropWhile is_table_row
      let result1 := if lastState result then result ++ [[]] else result
      match align_tableChecked table_lines with
      | none => none
      | some aligned =>
        let result2 := result1 ++ aligned
        let result3 :=
          match rest2.head? with
          | none => result2
          | some nxt => if blankL nxt then result2 else result2 ++ [[]]
        goChecked fuel result3 rest2
    else goChecked fuel (result ++ [l]) rest

/-- Option-valued `fix_tables_in_content`. -/
def fix_tables_in_contentChecked (content : List Char) : Option (List Char) :=
  (goChecked (splitOnChar '\n' content).length [] (splitOnChar '\n' content)).map
    (joinSep ['\n'])

theorem foldr_max_mem : ∀ {L : List Nat}, L ≠ [] → L.foldr max 0 ∈ L := by
  intro L
  induction L with
  | nil => intro h; exact absurd rfl h
  | cons x xs ih =>
    intro _
    cases xs with
    | nil =>
      simp only [List.foldr]
      rw [Nat.max_eq_left (Nat.zero_le x)]
      exact List.mem_cons_self x []
    | cons y t =>
      rw [List.foldr_cons]
      rcases max_choice x ((y :: t).foldr max 0) with hm | hm
      · rw [hm]; exact List.mem_cons_self _ _
      · rw [hm]; exact List.mem_cons_of_mem x (ih (by simp))

theorem max?_eq_foldr_max {L : List Nat} (hne : L ≠ []) :
    L.max? = some (L.foldr max 0) :=
  List.max?_eq_some_iff'.mpr ⟨foldr_max_mem hne, fun _ hb => le_foldr_max hb⟩

theorem mapM_option_some {α β : Type} {f : α → Option β} {g : α → β} :
    ∀ (L : List α), (∀ a ∈ L, f a = some (g a)) → L.mapM f = some (L.map g) := by
  intro L
  induction L with
  | nil => intro _; rfl
  | cons a l ih =>
    intro h
    rw [List.mapM_cons, h a (List.mem_cons_self a l),
      ih (fun b hb => h b (List.mem_cons_of_mem a hb))]
    rfl

theorem renderCellsChecked_eq {ws : List Nat} :
    ∀ (cs : List (List Char)) (i : Nat), i + cs.length ≤ ws.length →
    renderCellsChecked ws i cs
      = some ((cs.zip (ws.drop i)).map (fun cw => renderCell cw.1 cw.2)) := by
  intro cs
  induction cs with
  | nil => intro i _; simp [renderCellsChecked]
  | cons c cs' ih =>
    intro i hlen
    have hi : i < ws.length := by
      simp only [List.length_cons] at hlen
      omega
    have hdrop : ws.drop i = ws[i] :: ws.drop (i + 1) := List.drop_eq_getElem_cons hi
    rw [renderCellsChecked]
    rw [List.getElem?_eq_getElem hi]
    rw [ih (i + 1) (by simp only [List.length_cons] at hlen; omega)]
    rw [hdrop]
    rfl

theorem align_tableChecked_eq (table_lines : List (List Char)) :
    align_tableChecked table_lines = some (align_table table_lines) := by
  by_cases hne : table_lines = []
  · subst hne
    rfl
  · rw [align_tableChecked, align_table,
      if_neg (by simp [List.isEmpty_iff, parsedRows, hne]),
      if_neg (by simp [List.isEmpty_iff, parsedRows, hne]),
      if_neg (by simp [List.isEmpty_iff, parsedRows, hne]),
      if_neg (by simp [List.isEmpty_iff, parsedRows, hne])]
    have hmax : ((parsedRows table_lines).map List.length).max? = some (numCols table_lines) := by
      rw [numCols]
      exact max?_eq_foldr_max (by simp [parsedRows_ne_nil hne])
    rw [hmax]
    simp only []
    apply mapM_option_some
    intro row hrow
    have hrowP : row ∈ paddedRows table_lines := hrow
    have hrl : row.length = numCols table_lines := mem_paddedRows_length hrowP
    rw [renderCellsChecked_eq row 0 (by simp [hrl])]
    have hws : List.map (colWidth table_lines) (List.range (numCols table_lines))
        = List.map (colWidthOf ((parsedRows table_lines).map (padRow (numCols table_lines))))
            (List.range (numCols table_lines)) :=
      List.map_congr_left (fun j _ => rfl)
    simp [renderRow, colWidths, hws]

theorem goChecked_eq_goF : ∀ (fuel : Nat) (acc ls : List (List Char)),
    goChecked fuel acc ls = some (goF fuel acc ls) := by
  intro fuel
  induction fuel with
  | zero => intro acc ls; rfl
  | succ fuel ih =>
    intro acc ls
    cases ls with
    | nil => rfl
    | cons l rest =>
      by_cases h : is_table_row l = true
      · rw [goChecked, goF, if_pos h, if_pos h]
        simp only [align_tableChecked_eq]
        exact ih _ _
      · rw [goChecked, goF, if_neg h, if_neg h]
        exact ih _ _

theorem fix_checked_eq_some (content : List Char) :
    fix_tables_in_contentChecked content = some (fix_tables_in_content content) := by
  rw [fix_tables_in_contentChecked, goChecked_eq_goF]
  rfl

/-! ### Per-cell statements about the rendered output of `align_table` -/

/-- The cell at row `i`, column `j` of a table block, after padding. -/
def cellAt (tl : List (List Char)) (i j : Nat) : List Char :=
  ((paddedRows tl).getD i []).getD j []

/-- The cell at row `i`, column `j` parsed back out of the rendered output. -/
def outCellAt (tl : List (List Char)) (i j : Nat) : List Char :=
  (parseCells ((align_table tl).getD i [])).getD j []

theorem parseCells_align_row {tl : List (List Char)} {row : List (List Char)}
    (hrow : row ∈ paddedRows tl) (hn : 1 ≤ numCols tl) :
    parseCells (mkLine (renderRow row (colWidths tl)))
      = (renderRow row (colWidths tl)).map pyStrip := by
  have hrl : row.length = numCols tl := mem_paddedRows_length hrow
  apply parseCells_mkLine
  · intro hcon
    have hh : (renderRow row (colWidths tl)).length = numCols tl := by
      rw [renderRow_length, hrl, colWidths_length, Nat.min_self]
    rw [hcon] at hh
    simp at hh
    omega
  · intro c hc
    obtain ⟨⟨cc, w⟩, hcw, rfl⟩ := List.mem_map.mp hc
    exact pipe_not_mem_renderCell (mem_paddedRows_cell hrow (List.of_mem_zip hcw).1).2

theorem paddedRows_length_eq (tl : List (List Char)) :
    (paddedRows tl).length = tl.length := by
  simp [paddedRows, parsedRows]

theorem outCellAt_eq {tl : List (List Char)} {i j : Nat}
    (hi : i < tl.length) (hj : j < numCols tl) :
    outCellAt tl i j = pyStrip (renderCell (cellAt tl i j) (colWidth tl j)) := by
  have htlne : tl ≠ [] := by
    intro hc; subst hc; simp at hi
  have hn : 1 ≤ numCols tl := by omega
  have hiP : i < (paddedRows tl).length := by rw [paddedRows_length_eq]; exact hi
  have hrow : (paddedRows tl)[i] ∈ paddedRows tl := List.getElem_mem hiP
  have hrl : ((paddedRows tl)[i]).length = numCols tl := mem_paddedRows_length hrow
  have hiA : i < (align_table tl).length := by rw [align_table_length htlne]; exact hi
  have hline : (align_table tl).getD i [] =
      mkLine (renderRow ((paddedRows tl)[i]) (colWidths tl)) := by
    rw [List.getD_eq_getElem _ _ hiA]
    have hiM : i < ((paddedRows tl).map
        (fun row => mkLine (renderRow row (colWidths tl)))).length := by
      rw [List.length_map]; exact hiP
    have hAi : (align_table tl)[i] =
        ((paddedRows tl).map (fun row => mkLine (renderRow row (colWidths tl))))[i] := by
      congr 1
      exact align_table_eq htlne
    rw [hAi, List.getElem_map]
  rw [outCellAt, hline, parseCells_align_row hrow hn]
  have hrr : (renderRow ((paddedRows tl)[i]) (colWidths tl)).length = numCols tl := by
    rw [renderRow_length, hrl, colWidths_length, Nat.min_self]
  have hjm : j < ((renderRow ((paddedRows tl)[i]) (colWidths tl)).map pyStrip).length := by
    rw [List.length_map, hrr]; exact hj
  have hjW : j < (colWidths tl).length := by rw [colWidths_length]; exact hj
  rw [List.getD_eq_getElem _ _ hjm, List.getElem_map,
    renderRow_getElem (by rw [hrr]; exact hj) (by rw [hrl]; exact hj) hjW]
  rw [cellAt, List.getD_eq_getElem _ _ hiP,
    List.getD_eq_getElem _ _ (by rw [hrl]; exact hj)]
  rw [colWidths_getElem tl hjW]

theorem cellAt_width_ge {tl : List (List Char)} {i j : Nat}
    (hi : i < tl.length) (hj : j < numCols tl)
    (hsep : sepStyle (cellAt tl i j) = true) : 3 ≤ colWidth tl j := by
  have hiP : i < (paddedRows tl).length := by rw [paddedRows_length_eq]; exact hi
  have hrow : (paddedRows tl)[i] ∈ paddedRows tl := List.getElem_mem hiP
  have hrl : ((paddedRows tl)[i]).length = numCols tl := mem_paddedRows_length hrow
  have hcell : cellAt tl i j = ((paddedRows tl)[i]).getD j [] := by
    rw [cellAt, List.getD_eq_getElem _ _ hiP]
  have := contrib_le_colWidth hrow (by rw [hrl]; exact hj)
  rw [← hcell] at this
  rw [if_pos hsep] at this
  exact this

theorem renderCell_sep_eq {c : List Char} {w : Nat} (hs : sepStyle c = true) :
    renderCell c w
      = (if c.head? = some ':' ∧ c.getLast? = some ':' then
          ':' :: List.replicate (w - 2) '-' ++ [':']
        else if c.head? = some ':' then ':' :: List.replicate (w - 1) '-'
        else if c.getLast? = some ':' then List.replicate (w - 1) '-' ++ [':']
        else List.replicate w '-') := by
  unfold renderCell
  rw [if_pos hs]
  by_cases h1 : c.head? = some ':' <;> by_cases h2 : c.getLast? = some ':' <;>
    simp [h1, h2]

theorem renderCell_colons {c : List Char} {w : Nat} (hs : sepStyle c = true)
    (hw : 3 ≤ w) :
    ((renderCell c w).head? = some ':' ↔ c.head? = some ':')
    ∧ ((renderCell c w).getLast? = some ':' ↔ c.getLast? = some ':') := by
  by_cases h1 : c.head? = some ':' <;> by_cases h2 : c.getLast? = some ':'
  · have hpat : renderCell c w = ':' :: List.replicate (w - 2) '-' ++ [':'] := by
      unfold renderCell
      rw [if_pos hs, if_pos (by simp [h1, h2])]
    have hh : (renderCell c w).head? = some ':' := by rw [hpat]; rfl
    have hl : (renderCell c w).getLast? = some ':' := by
      rw [hpat, show ':' :: List.replicate (w - 2) '-' ++ [':']
        = (':' :: List.replicate (w - 2) '-') ++ [':'] from rfl]
      exact List.getLast?_concat _
    exact ⟨by rw [hh, h1], by rw [hl, h2]⟩
  · have hpat : renderCell c w = ':' :: List.replicate (w - 1) '-' := by
      unfold renderCell
      rw [if_pos hs, if_neg (by simp [h2]), if_pos (by simp [h1])]
    have hh : (renderCell c w).head? = some ':' := by rw [hpat]; rfl
    have hl : (renderCell c w).getLast? = some '-' := by
      rw [hpat, getLast?_cons_ne_nil (by simp; omega)]
      exact getLast?_replicate '-' (by omega)
    refine ⟨by rw [hh, h1], ?_⟩
    rw [hl]
    simp [h2]
  · have hc_ne : c ≠ [] := by
      intro hc; subst hc; simp at h2
    have hpat : renderCell c w = List.replicate (w - 1) '-' ++ [':'] := by
      unfold renderCell
      rw [if_pos hs, if_neg (by simp [h1]), if_neg (by simp [h1]), if_pos (by simp [h2])]
    have hh : (renderCell c w).head? = some '-' := by
      rw [hpat, List.head?_append_of_ne_nil _ (by simp; omega)]
      exact head?_replicate_pos '-' (by omega)
    have hl : (renderCell c w).getLast? = some ':' := by
      rw [hpat]
      exact List.getLast?_concat _
    refine ⟨?_, by rw [hl, h2]⟩
    rw [hh]
    simp [h1]
  · have hpat : renderCell c w = List.replicate w '-' := by
      unfold renderCell
      rw [if_pos hs, if_neg (by simp [h1]), if_neg (by simp [h1]), if_neg (by simp [h2])]
    have hh : (renderCell c w).head? = some '-' := by
      rw [hpat]
      exact head?_replicate_pos '-' (by omega)
    have hl : (renderCell c w).getLast? = some '-' := by
      rw [hpat]
      exact getLast?_replicate '-' (by omega)
    constructor
    · rw [hh]; simp [h1]
    · rw [hl]; simp [h2]

theorem head?_pipe_iff {s : List Char} {c : Char} :
    s.head? = some c ↔ [c] <+: s := by
  constructor
  · intro h
    cases s with
    | nil => simp at h
    | cons a t =>
      simp only [List.head?_cons, Option.some.injEq] at h
      subst h
      exact ⟨t, rfl⟩
  · rintro ⟨t, ht⟩
    rw [← ht]
    rfl

theorem getLast?_pipe_iff {s : List Char} {c : Char} :
    s.getLast? = some c ↔ [c] <:+ s := by
  constructor
  · intro h
    rw [List.getLast?_eq_head?_reverse] at h
    cases hs : s.reverse with
    | nil => rw [hs] at h; simp at h
    | cons a t =>
      rw [hs] at h
      simp only [List.head?_cons, Option.some.injEq] at h
      refine ⟨t.reverse, ?_⟩
      have hrev : s = (a :: t).reverse := by rw [← hs, List.reverse_reverse]
      rw [hrev, ← h]
      simp
  · rintro ⟨t, ht⟩
    rw [← ht]
    exact List.getLast?_concat _

/-! ## Claim theorems -/

/-- C1, counterexample: the transform is not idempotent on every input.  The
one-character document `"|"` is recognised as a table row but parses to zero
cells; it renders to `"|  |"`, which re-parses as one empty cell and
re-renders to `"| --- |"`, so a second application changes the output. -/
theorem claim_C1_counterexample :
    fix_tables_in_content (fix_tables_in_content ['|'])
      ≠ fix_tables_in_content ['|'] := by
  decide

/-- C1 (amended): applying `fix_tables_in_content` to its own output is a
no-op for every input in which each table-row line parses to at least one
cell (i.e. contains at least two pipes after trimming); the zero-cell rows
excluded by this condition are exactly the counterexample family. -/
theorem claim_C1 (content : List Char)
    (h : ∀ l ∈ splitOnChar '\n' content, is_table_row l = true → parseCells l ≠ []) :
    fix_tables_in_content (fix_tables_in_content content)
      = fix_tables_in_content content :=
  fix_idem_of_cells h

theorem claim_C1_witness :
    fix_tables_in_content (fix_tables_in_content ['|', 'a', '|', '\n', 'x'])
      = fix_tables_in_content ['|', 'a', '|', '\n', 'x'] :=
  claim_C1 ['|', 'a', '|', '\n', 'x'] (by decide)

/-- C2: every line produced by `align_table` renders a row with exactly
`numCols` cells — the maximum cell count among the input rows — and the
rendered character width of the cell in column `j` equals the block's
computed width `colWidth tl j`. -/
theorem claim_C2 (tl : List (List Char)) (line : List Char)
    (hline : line ∈ align_table tl) :
    ∃ cells, line = mkLine cells ∧ cells.length = numCols tl ∧
      ∀ j, (hj : j < cells.length) →
        (cells.get ⟨j, hj⟩).length = colWidth tl j := by
  by_cases hne : tl = []
  · subst hne; simp [align_table] at hline
  · obtain ⟨row, hrow, rfl⟩ := mem_align_table hne hline
    have hrl : row.length = numCols tl := mem_paddedRows_length hrow
    have hlen : (renderRow row (colWidths tl)).length = numCols tl := by
      rw [renderRow_length, hrl, colWidths_length, Nat.min_self]
    refine ⟨renderRow row (colWidths tl), rfl, hlen, ?_⟩
    intro j hj
    have hjn : j < numCols tl := by rw [← hlen]; exact hj
    have hjr : j < row.length := by rw [hrl]; exact hjn
    have hjW : j < (colWidths tl).length := by rw [colWidths_length]; exact hjn
    rw [List.get_eq_getElem, renderRow_getElem hj hjr hjW, colWidths_getElem tl hjW]
    have hcell : row[j] = row.getD j [] := (List.getD_eq_getElem _ _ hjr).symm
    rw [hcell]
    have hcontrib := contrib_le_colWidth hrow (j := j) (by rw [hrl]; exact hjn)
    by_cases hsep : sepStyle (row.getD j []) = true
    · rw [if_pos hsep] at hcontrib
      exact renderCell_length_sep hsep (by omega)
    · rw [if_neg hsep] at hcontrib
      exact renderCell_length_reg (Bool.eq_false_iff.mpr hsep) hcontrib

theorem claim_C2_witness :
    ∃ cells, (['|', ' ', 'a', ' ', '|'] : List Char) = mkLine cells ∧
      cells.length = numCols [['|', 'a', '|']] ∧
      ∀ j, (hj : j < cells.length) →
        (cells.get ⟨j, hj⟩).length = colWidth [['|', 'a', '|']] j :=
  claim_C2 [['|', 'a', '|']] ['|', ' ', 'a', ' ', '|'] (by decide)

/-- C3: a separator-style cell at padded position `(i, j)` of a table block
appears in the rendered output, at the column's computed width `w`, as
`':' ++ '-'*(w-2) ++ ':'` when it has both edge colons, `':' ++ '-'*(w-1)`
with a leading colon only, `'-'*(w-1) ++ ':'` with a trailing colon only, and
`'-'*w` with no colon. -/
theorem claim_C3 (tl : List (List Char)) (i j : Nat)
    (hi : i < tl.length) (hj : j < numCols tl)
    (hsep : sepStyle (cellAt tl i j) = true) :
    outCellAt tl i j
      = (if (cellAt tl i j).head? = some ':' ∧ (cellAt tl i j).getLast? = some ':' then
          ':' :: List.replicate (colWidth tl j - 2) '-' ++ [':']
        else if (cellAt tl i j).head? = some ':' then
          ':' :: List.replicate (colWidth tl j - 1) '-'
        else if (cellAt tl i j).getLast? = some ':' then
          List.replicate (colWidth tl j - 1) '-' ++ [':']
        else List.replicate (colWidth tl j) '-') := by
  rw [outCellAt_eq hi hj, pyStrip_renderCell_sep hsep, renderCell_sep_eq hsep]

/-- C3 witness, the spec's example: the right-aligned marker `---:` in a
column whose widest content cell is 6 characters renders as `-----:`. -/
theorem claim_C3_witness :
    outCellAt [['|', '-', '-', '-', ':', '|'],
               ['|', 'a', 'b', 'c', 'd', 'e', 'f', '|']] 0 0
      = ['-', '-', '-', '-', '-', ':'] :=
  (claim_C3 [['|', '-', '-', '-', ':', '|'],
             ['|', 'a', 'b', 'c', 'd', 'e', 'f', '|']] 0 0
    (by decide) (by decide) (by decide)).trans (by decide)

/-- Column width as the spec describes it: the maximum over the (padded) rows
of the cell's contribution, where a cell whose characters are all in `-:` —
the empty string included — contributes a floor of 3 and any other cell the
length of its trimmed content. -/
def specColWidth (tl : List (List Char)) (j : Nat) : Nat :=
  ((paddedRows tl).map
    (fun row => if sepStyle (row.getD j []) then 3 else (row.getD j []).length)).foldr
    max 0

/-- C4: the column width the code computes coincides with the spec's
maximum-of-contributions description, the width-3 floor applying to every
all-`-:` cell, empty cells included. -/
theorem claim_C4 (tl : List (List Char)) (j : Nat) (hj : j < numCols tl) :
    colWidth tl j = specColWidth tl j := by
  rw [colWidth, colWidthOf_eq_foldl,
    foldl_widthStep_eq_foldr_max
      (fun row hrow => by rw [mem_paddedRows_length hrow]; exact hj) 0,
    specColWidth]
  simp

/-- C4 witness: in a block with a `||` row (one empty cell) and an `|a|` row,
the empty cell receives the width-3 floor, so the column width is 3. -/
theorem claim_C4_witness :
    colWidth [['|', '|'], ['|', 'a', '|']] 0
        = specColWidth [['|', '|'], ['|', 'a', '|']] 0
      ∧ colWidth [['|', '|'], ['|', 'a', '|']] 0 = 3 :=
  ⟨claim_C4 [['|', '|'], ['|', 'a', '|']] 0 (by decide), by decide⟩

/-- C5: around one table block, a blank line is emitted before the rendered
block iff the preceding output line (the last line of the pass-through
prefix) exists and is non-blank, and a blank line is emitted after the block
iff the next source line exists and is non-blank; nothing else is inserted. -/
theorem claim_C5 (pre t rest : List (List Char))
    (hpre : pre.all (fun l => !is_table_row l) = true)
    (ht : t.all is_table_row = true)
    (htne : t ≠ [])
    (hrest : rest.head?.all (fun x => !is_table_row x) = true) :
    fixLines (pre ++ (t ++ rest))
      = pre
        ++ ((match pre.getLast? with
            | none => []
            | some last => if blankL last then [] else [[]])
        ++ (align_table t
        ++ ((match rest.head? with
            | none => []
            | some nxt => if blankL nxt then [] else [[]])
        ++ go2 (afterState rest) rest))) := by
  have hpre' : ∀ l ∈ pre, is_table_row l = false := by
    intro l hl
    have := List.all_eq_true.mp hpre l hl
    simpa using this
  have ht' : ∀ l ∈ t, is_table_row l = true := List.all_eq_true.mp ht
  have hrest' : ∀ x, rest.head? = some x → is_table_row x = false := by
    intro x hx
    rw [hx] at hrest
    simpa using hrest
  rw [fixLines_eq_go2, go2_append_not_tr pre false (t ++ rest) hpre',
    go2_table_block _ ht' htne hrest']
  have hq : (if (match pre.getLast? with
        | none => false
        | some last => !blankL last) then [([] : List Char)] else [])
      = (match pre.getLast? with
        | none => []
        | some last => if blankL last then [] else [[]]) := by
    cases hgl : pre.getLast? with
    | none => rfl
    | some last => cases hbl : blankL last <;> simp [hbl]
  rw [hq]
  simp only [afterBlank, List.append_assoc]

theorem claim_C5_witness :
    fixLines ([['x']] ++ ([['|', 'a', '|']] ++ []))
      = [['x'], [], ['|', ' ', 'a', ' ', '|']] :=
  (claim_C5 [['x']] [['|', 'a', '|']] [] (by decide) (by decide) (by decide)
    (by decide)).trans (by rw [go2_nil]; decide)

/-- C6: for a separator-style cell at padded position `(i, j)`, the presence
of a leading colon and of a trailing colon is the same in the rendered output
cell as in the input cell. -/
theorem claim_C6 (tl : List (List Char)) (i j : Nat)
    (hi : i < tl.length) (hj : j < numCols tl)
    (hsep : sepStyle (cellAt tl i j) = true) :
    ((outCellAt tl i j).head? = some ':' ↔ (cellAt tl i j).head? = some ':')
    ∧ ((outCellAt tl i j).getLast? = some ':' ↔ (cellAt tl i j).getLast? = some ':') := by
  rw [outCellAt_eq hi hj, pyStrip_renderCell_sep hsep]
  exact renderCell_colons hsep (cellAt_width_ge hi hj hsep)

theorem claim_C6_witness :
    ((outCellAt [['|', ':', '-', '|'], ['|', 'a', 'b', 'c', 'd', '|']] 0 0).head?
        = some ':'
      ↔ (cellAt [['|', ':', '-', '|'], ['|', 'a', 'b', 'c', 'd', '|']] 0 0).head?
        = some ':')
    ∧ ((outCellAt [['|', ':', '-', '|'], ['|', 'a', 'b', 'c', 'd', '|']] 0 0).getLast?
        = some ':'
      ↔ (cellAt [['|', ':', '-', '|'], ['|', 'a', 'b', 'c', 'd', '|']] 0 0).getLast?
        = some ':') :=
  claim_C6 [['|', ':', '-', '|'], ['|', 'a', 'b', 'c', 'd', '|']] 0 0
    (by decide) (by decide) (by decide)

/-- C7: the transform reproduces every non-table line verbatim and in order:
the non-blank non-table lines of the output are exactly those of the input,
the non-table lines of the input are a subsequence of those of the output,
and every output line is an input line, a blank line, or a table row. -/
theorem claim_C7 (ls : List (List Char)) :
    (fixLines ls).filter (fun l => !is_table_row l && !blankL l)
        = ls.filter (fun l => !is_table_row l && !blankL l)
    ∧ (ls.filter (fun l => !is_table_row l)).Sublist
        ((fixLines ls).filter (fun l => !is_table_row l))
    ∧ ∀ l ∈ fixLines ls, l ∈ ls ∨ blankL l = true ∨ is_table_row l = true := by
  rw [fixLines_eq_go2]
  exact ⟨go2_filter_content ls.length ls (Nat.le_refl _) false,
    go2_filter_sublist ls.length ls (Nat.le_refl _) false,
    go2_mem_classify ls.length ls (Nat.le_refl _) false⟩

theorem claim_C7_witness :
    (fixLines [['x'], ['|', 'a', '|']]).filter (fun l => !is_table_row l && !blankL l)
      = [['x'], ['|', 'a', '|']].filter (fun l => !is_table_row l && !blankL l) :=
  (claim_C7 [['x'], ['|', 'a', '|']]).1

/-- C8: the transform is total.  In the error-aware model, where Python's
`max()` on an empty sequence and out-of-range list indexing return `none`
instead of raising, the transform always returns `some` of the plain result —
on every input, malformed and degenerate tables included. -/
theorem claim_C8 (content : List Char) :
    fix_tables_in_contentChecked content = some (fix_tables_in_content content) :=
  fix_checked_eq_some content

theorem claim_C8_witness :
    fix_tables_in_contentChecked ['|']
      = some (fix_tables_in_content ['|']) :=
  claim_C8 ['|']

/-- C9: any column that contains a separator-style cell has computed width at
least 3, so every dash repeat count `width - 1` or `width - 2` used by the
renderer stays non-negative without an explicit guard. -/
theorem claim_C9 (tl : List (List Char)) (i j : Nat)
    (hi : i < tl.length) (hj : j < numCols tl)
    (hsep : sepStyle (cellAt tl i j) = true) :
    3 ≤ colWidth tl j :=
  cellAt_width_ge hi hj hsep

theorem claim_C9_witness : 3 ≤ colWidth [['|', '-', '|']] 0 :=
  claim_C9 [['|', '-', '|']] 0 0 (by decide) (by decide) (by decide)

/-- C10: a line is a table row exactly when, after trimming leading and
trailing whitespace, it starts with `'|'` and ends with `'|'`. -/
theorem claim_C10 (line : List Char) :
    is_table_row line = true ↔
      ['|'] <+: pyStrip line ∧ ['|'] <:+ pyStrip line := by
  rw [is_table_row, Bool.and_eq_true, beq_iff_eq, beq_iff_eq,
    head?_pipe_iff, getLast?_pipe_iff]

theorem claim_C10_witness :
    is_table_row ['|'] = true ↔
      ['|'] <+: pyStrip ['|'] ∧ ['|'] <:+ pyStrip ['|'] :=
  claim_C10 ['|']

end MdTables
